import Mathlib

/-!
VeilVault: the byte-stream / pixel-grid codec of `internal/veilvault/dir.go`.

A shallow embedding of `bytesToImage` (the packer), of the header recovery and pixel scan
of `Decode` (the unpacker) and of `shouldExclude`, together with the parts of the Go
standard library they rely on (`image.RGBA`, `color.RGBA`, `strings.Split`,
`strings.HasPrefix`, `strconv.Atoi`, the `%d` verb).

Conventions.
* A Go `byte` is a `Nat` below 256; a Go `string` or `[]byte` is a `List Nat` of such values
  (`Bytes`).  Byte arithmetic that may wrap is written with an explicit `% 256`.
* A Go `int` that is never negative in the code (lengths, loop counters, widths) is a `Nat`.
* A counted `for` loop is a left fold over the list of the values its counter takes, or a
  structurally recursive function with an iteration budget that the loop provably never
  exhausts.
* An image is a Go `*image.RGBA` with rectangle `image.Rect(0, 0, w, h)`, the type
  `bytesToImage` returns; the unpacker is modelled on images of that type, so that
  `img.At(x, y).RGBA()` is the method of `color.RGBA`.
-/

namespace VeilVault

/-- A Go byte string (`string` or `[]byte`). -/
abbrev Bytes := List Nat

/-- Every element is a byte value. -/
def IsBytes (s : Bytes) : Prop := ∀ b ∈ s, b < 256

instance (s : Bytes) : Decidable (IsBytes s) := by
  unfold IsBytes; infer_instance

/-- Conversion `byte(v)` of an unsigned integer. -/
def byte (v : Nat) : Nat := v % 256

/-- The two errors of package `strconv`. -/
inductive GoError where
  | errSyntax
  | errRange
deriving DecidableEq, Repr

/-- How a piece of Go code ends: it returns a value with a nil error, it returns a non-nil
error, or it stops with a run-time panic. -/
inductive Outcome (α : Type) where
  | value : α → Outcome α
  | error : GoError → Outcome α
  | crash : String → Outcome α
deriving DecidableEq, Repr

/-! ## `image/color` and `image` -/

/-- Go `color.RGBA`: four 8-bit channels. -/
structure RGBA where
  R : Nat
  G : Nat
  B : Nat
  A : Nat
deriving DecidableEq, Repr

/-- The zero value `color.RGBA{}`. -/
def RGBA.zero : RGBA := ⟨0, 0, 0, 0⟩

/-- Go `func (c color.RGBA) RGBA() (r, g, b, a uint32)`: each channel `v` becomes
`v | v << 8`, a 16-bit value. -/
def RGBA.RGBA16 (c : RGBA) : Nat × Nat × Nat × Nat :=
  (c.R ||| (c.R <<< 8), c.G ||| (c.G <<< 8), c.B ||| (c.B <<< 8), c.A ||| (c.A <<< 8))

/-- Go `*image.RGBA` whose rectangle is `image.Rect(0, 0, w, h)`: the pixels in row-major
order (pixel `(x, y)` at position `y * w + x`). -/
structure Image where
  w : Nat
  h : Nat
  Pix : List RGBA
deriving DecidableEq, Repr

/-- Go `image.NewRGBA(image.Rect(0, 0, w, h))` when the call returns: every pixel is the
zero value.  The panics of the call on dimensions too large are in `NewRGBAChecked`. -/
def NewRGBA (w h : Nat) : Image := ⟨w, h, List.replicate (w * h) RGBA.zero⟩

/-- Go `(*image.RGBA).Set` with a `color.RGBA` argument: a point outside the rectangle is
ignored. -/
def Image.Set (img : Image) (x y : Nat) (c : RGBA) : Image :=
  if x < img.w ∧ y < img.h then { img with Pix := img.Pix.set (y * img.w + x) c } else img

/-- Go `(*image.RGBA).At`: a point outside the rectangle reads as the zero value. -/
def Image.At (img : Image) (x y : Nat) : RGBA :=
  if x < img.w ∧ y < img.h then img.Pix.getD (y * img.w + x) RGBA.zero else RGBA.zero

/-! ## `fmt`, `strings`, `regexp`, `strconv` -/

/-- The digit loop of the `%d` verb for a non-negative integer: least significant digit
first, pushed in front of what is already written. -/
def itoaLoop : Nat → Nat → Bytes → Bytes
  | 0, _, acc => acc
  | fuel + 1, n, acc =>
    if n < 10 then (48 + n) :: acc
    else itoaLoop fuel (n / 10) ((48 + n % 10) :: acc)

/-- Decimal text of a non-negative integer, as the `%d` verb writes it. -/
def itoa (n : Nat) : Bytes := itoaLoop (n + 1) n []

/-- Go `fmt.Sprintf("%s|%d", fileName, fileSize)`. -/
def Sprintf (fileName : Bytes) (fileSize : Nat) : Bytes :=
  fileName ++ 124 :: itoa fileSize

/-- Go `strings.Split(s, sep)` for a separator of one byte. -/
def Split (sep : Nat) : Bytes → List Bytes
  | [] => [[]]
  | c :: cs =>
    if c = sep then [] :: Split sep cs
    else
      match Split sep cs with
      | [] => [[c]]
      | p :: ps => (c :: p) :: ps

/-- An ASCII decimal digit. -/
def isDigit (c : Nat) : Bool := 48 ≤ c && c ≤ 57

/-- Go `re.ReplaceAllString(s, "")` for `re = regexp.MustCompile("[^0-9]+")`: every maximal
run of characters that are not decimal digits is deleted, which on a byte string keeps
exactly the digit bytes. -/
def ReplaceAllString (s : Bytes) : Bytes := s.filter isDigit

/-- Value of a string of decimal digits, most significant first. -/
def digitsValue (s : Bytes) : Nat := s.foldl (fun n ch => n * 10 + (ch - 48)) 0

/-- Go `strconv.Atoi` with a 64-bit `int`: an optional sign, then one or more decimal
digits; `ErrSyntax` for anything else and `ErrRange` outside the `int` range. -/
def Atoi (s : Bytes) : Except GoError Int :=
  match s with
  | [] => .error .errSyntax
  | c :: cs =>
    let neg := c = 45
    let body := if c = 45 ∨ c = 43 then cs else s
    if body = [] then .error .errSyntax
    else if ¬ body.all isDigit then .error .errSyntax
    else
      let n := digitsValue body
      if neg then
        if n ≤ 2 ^ 63 then .ok (-(n : Int)) else .error .errRange
      else
        if n < 2 ^ 63 then .ok (n : Int) else .error .errRange

/-! ## The packer: `bytesToImage` -/

/-- The header loop of `bytesToImage`: `for i := 0; i < len(metaBytes); i += 3`. -/
def metaLoop (metaBytes : Bytes) : Nat → Nat → Image → Image
  | 0, _, img => img
  | fuel + 1, i, img =>
    if i < metaBytes.length then
      let x := i / 3
      let r := metaBytes.getD i 0
      let g := if i + 1 < metaBytes.length then metaBytes.getD (i + 1) 0 else 0
      let b := if i + 2 < metaBytes.length then metaBytes.getD (i + 2) 0 else 0
      metaLoop metaBytes fuel (i + 3) (img.Set x 0 ⟨r, g, b, 255⟩)
    else img

/-- The variables the payload loops of `bytesToImage` update. -/
structure FillState where
  index : Nat
  stopX : Nat
  stopY : Nat
  img : Image
deriving DecidableEq, Repr

/-- Body of the inner payload loop of `bytesToImage` at pixel `(x, y)`. -/
def fillPixel (fileBytes : Bytes) (length y : Nat) (s : FillState) (x : Nat) : FillState :=
  if s.index < length then
    let r := fileBytes.getD s.index 0
    let a := 255
    let g := if s.index + 1 < length then fileBytes.getD (s.index + 1) 0 else 0
    let a := if s.index + 1 < length then a else (a + 256 - 1) % 256
    let b := if s.index + 2 < length then fileBytes.getD (s.index + 2) 0 else 0
    let a := if s.index + 2 < length then a else (a + 256 - 2) % 256
    { s with img := s.img.Set x y ⟨r, g, b, a⟩, index := s.index + 3 }
  else
    let s1 := if s.stopX = s.stopY ∧ s.stopX = 0 then { s with stopX := x, stopY := y } else s
    { s1 with img := s1.img.Set x y ⟨0, 0, 0, 0⟩ }

/-- One payload row of `bytesToImage`: `for x := 0; x < imgWidth; x++`. -/
def fillRow (fileBytes : Bytes) (length imgWidth : Nat) (s : FillState) (y : Nat) : FillState :=
  (List.range imgWidth).foldl (fillPixel fileBytes length y) s

/-- Go `bytesToImage(fileName, fileBytes, imgWidth)` for a non-negative width.  The returned
error is always nil; a zero width panics at `length / imgWidth`.  The grid is the one the
call returns when `image.NewRGBA` returns; `bytesToImageChecked` adds the panics of that
call and of the index expressions. -/
def bytesToImage (fileName : Bytes) (fileBytes : Bytes) (imgWidth : Nat) : Outcome Image :=
  let fileSize := fileBytes.length
  let length := fileBytes.length
  if imgWidth = 0 then .crash "integer divide by zero"
  else
    let imgHeight := length / imgWidth
    let imgHeight := if length % imgWidth ≠ 0 then imgHeight + 1 else imgHeight
    let img := NewRGBA imgWidth (imgHeight + 1)
    let metaBytes := Sprintf fileName fileSize
    let img := metaLoop metaBytes metaBytes.length 0 img
    let s := (List.range' 1 imgHeight).foldl (fillRow fileBytes length imgWidth) ⟨0, 0, 0, img⟩
    .value s.img

/-! ## The unpacker: the header recovery and the pixel scan of `Decode` -/

/-- Step 3 of `Decode`, first loop: the R, G, B bytes of row 0 over the whole width. -/
def Decode.metaBytes (img : Image) : Bytes :=
  (List.range img.w).foldl
    (fun acc x =>
      let c := (img.At x 0).RGBA16
      acc ++ [byte (c.1 >>> 8), byte (c.2.1 >>> 8), byte (c.2.2.1 >>> 8)])
    []

/-- Step 3 of `Decode`, header recovery: `fileName` and `fileSize`.  `metaParts[1]` panics
when `strings.Split` returned a single part. -/
def Decode.header (img : Image) : Outcome (Bytes × Int) :=
  match Split 124 (Decode.metaBytes img) with
  | [] => .crash "index out of range [0] with length 0"
  | [_] => .crash "index out of range [1] with length 1"
  | fileName :: sizeField :: _ =>
    match Atoi (ReplaceAllString sizeField) with
    | .error e => .error e
    | .ok fileSize => .value (fileName, fileSize)

/-- The variables of the scan of `Decode`, and whether `break scan` has been taken. -/
structure ScanState where
  zipBytes : Bytes
  stopped : Bool
deriving DecidableEq, Repr

/-- Body of the inner scan loop of `Decode` at pixel `(x, y)`; `img.w` and `img.h` are
`bounds.Max.X` and `bounds.Max.Y`, and a state that is `stopped` has left the loops. -/
def Decode.scanPixel (img : Image) (y : Nat) (s : ScanState) (x : Nat) : ScanState :=
  if s.stopped then s
  else
    let c := (img.At x y).RGBA16
    let r := c.1
    let g := c.2.1
    let b := c.2.2.1
    let a := c.2.2.2
    if a < 255 ∧ y ≠ 0 then { s with stopped := true }
    else
      let z := s.zipBytes ++ [byte (r >>> 8)]
      let z := if (x + y * img.w) * 3 + 1 < img.w * img.h * 3 then z ++ [byte (g >>> 8)] else z
      let z := if (x + y * img.w) * 3 + 2 < img.w * img.h * 3 then z ++ [byte (b >>> 8)] else z
      { s with zipBytes := z }

/-- One row of the scan of `Decode`: `for x := bounds.Min.X; x < bounds.Max.X; x++`. -/
def Decode.scanRow (img : Image) (s : ScanState) (y : Nat) : ScanState :=
  (List.range img.w).foldl (Decode.scanPixel img y) s

/-- Step 4 of `Decode`: the bytes collected by the labelled loop `scan`, whose rows run
from `bounds.Min.Y = 0` to `bounds.Max.Y`. -/
def Decode.scan (img : Image) : Bytes :=
  ((List.range img.h).foldl (Decode.scanRow img) ⟨[], false⟩).zipBytes

/-- Steps 3 and 4 of `Decode` on a decoded image: label, declared length and the bytes
handed to the archive reader. -/
def Decode.unpack (img : Image) : Outcome (Bytes × Int × Bytes) :=
  match Decode.header img with
  | .crash m => .crash m
  | .error e => .error e
  | .value (fileName, fileSize) => .value (fileName, fileSize, Decode.scan img)

/-! ## The packer with every index expression checked -/

/-- Sequencing of outcomes: the second step runs on the value of the first. -/
def Outcome.bind {α β : Type} (o : Outcome α) (f : α → Outcome β) : Outcome β :=
  match o with
  | .value a => f a
  | .error e => .error e
  | .crash m => .crash m

/-- Go index expression `s[i]` on a byte slice: a run-time panic when `i` is out of range. -/
def index (s : Bytes) (i : Nat) : Outcome Nat :=
  match s[i]? with
  | some b => .value b
  | none => .crash "index out of range"

/-- A counted `for` loop whose body may panic: `xs` lists the values of the counter. -/
def Outcome.loop {σ : Type} (body : σ → Nat → Outcome σ) : σ → List Nat → Outcome σ
  | s, [] => .value s
  | s, x :: xs => (body s x).bind fun s1 => Outcome.loop body s1 xs

/-- The header loop of `bytesToImage` with `metaBytes[i]`, `metaBytes[i+1]` and
`metaBytes[i+2]` as checked index expressions. -/
def metaLoopChecked (metaBytes : Bytes) : Nat → Nat → Image → Outcome Image
  | 0, _, img => .value img
  | fuel + 1, i, img =>
    if i < metaBytes.length then
      (index metaBytes i).bind fun r =>
      (if i + 1 < metaBytes.length then index metaBytes (i + 1) else .value 0).bind fun g =>
      (if i + 2 < metaBytes.length then index metaBytes (i + 2) else .value 0).bind fun b =>
      metaLoopChecked metaBytes fuel (i + 3) (img.Set (i / 3) 0 ⟨r, g, b, 255⟩)
    else .value img

/-- Body of the inner payload loop of `bytesToImage` with `fileBytes[index]`,
`fileBytes[index+1]` and `fileBytes[index+2]` as checked index expressions. -/
def fillPixelChecked (fileBytes : Bytes) (length y : Nat) (s : FillState) (x : Nat) :
    Outcome FillState :=
  if s.index < length then
    (index fileBytes s.index).bind fun r =>
    (if s.index + 1 < length then index fileBytes (s.index + 1) else .value 0).bind fun g =>
    (if s.index + 2 < length then index fileBytes (s.index + 2) else .value 0).bind fun b =>
    let a := 255
    let a := if s.index + 1 < length then a else (a + 256 - 1) % 256
    let a := if s.index + 2 < length then a else (a + 256 - 2) % 256
    .value { s with img := s.img.Set x y ⟨r, g, b, a⟩, index := s.index + 3 }
  else
    let s1 := if s.stopX = s.stopY ∧ s.stopX = 0 then { s with stopX := x, stopY := y } else s
    .value { s1 with img := s1.img.Set x y ⟨0, 0, 0, 0⟩ }

/-- One payload row of `bytesToImage`, index expressions checked. -/
def fillRowChecked (fileBytes : Bytes) (length imgWidth : Nat) (s : FillState) (y : Nat) :
    Outcome FillState :=
  Outcome.loop (fillPixelChecked fileBytes length y) s (List.range imgWidth)

/-- Go `mul3NonNeg(x, y, z)` of package `image` on arguments that are not negative: the
product, and nothing (the Go result -1) when `x * y` or the whole product does not fit in
64 bits or the product is not a non-negative `int`. -/
def mul3NonNeg (x y z : Nat) : Option Nat :=
  if 2 ^ 64 ≤ x * y then none
  else if 2 ^ 64 ≤ x * y * z then none
  else if 2 ^ 63 ≤ x * y * z then none
  else some (x * y * z)

/-- Go `image.NewRGBA(image.Rect(0, 0, w, h))` with its panics: `pixelBufferLength` panics
when `mul3NonNeg(4, w, h)` is negative, and `make([]uint8, n)` panics when the run-time
system does not grant a slice of `n` bytes; `canAlloc n` says whether it grants one. -/
def NewRGBAChecked (canAlloc : Nat → Bool) (w h : Nat) : Outcome Image :=
  match mul3NonNeg 4 w h with
  | none => .crash "image: NewRGBA Rectangle has huge or negative dimensions"
  | some n => if canAlloc n then .value (NewRGBA w h) else .crash "makeslice: len out of range"

/-- Go `bytesToImage` with every index expression, the division `length / imgWidth` and
the call of `image.NewRGBA` checked: the outcome is a panic as soon as one of them fails.
`canAlloc` is the allocator of the run-time system. -/
def bytesToImageChecked (canAlloc : Nat → Bool) (fileName : Bytes) (fileBytes : Bytes)
    (imgWidth : Nat) : Outcome Image :=
  let fileSize := fileBytes.length
  let length := fileBytes.length
  if imgWidth = 0 then .crash "integer divide by zero"
  else
    let imgHeight := length / imgWidth
    let imgHeight := if length % imgWidth ≠ 0 then imgHeight + 1 else imgHeight
    (NewRGBAChecked canAlloc imgWidth (imgHeight + 1)).bind fun img =>
    let metaBytes := Sprintf fileName fileSize
    (metaLoopChecked metaBytes metaBytes.length 0 img).bind fun img =>
    (Outcome.loop (fillRowChecked fileBytes length imgWidth) ⟨0, 0, 0, img⟩
      (List.range' 1 imgHeight)).bind fun s =>
    .value s.img

/-! ## Path exclusion: `shouldExclude` -/

/-- Go `strings.HasPrefix(s, pre)`: `len(s) >= len(pre) && s[:len(pre)] == pre`. -/
def HasPrefix (s pre : Bytes) : Bool :=
  decide (pre.length ≤ s.length) && (s.take pre.length == pre)

/-- Go `shouldExclude(path, excludes)`: the first element of `excludes` that `path` starts
with makes the answer true. -/
def shouldExclude (path : Bytes) : List Bytes → Bool
  | [] => false
  | exclude :: rest => if HasPrefix path exclude then true else shouldExclude path rest

/-- The test of `Encode` that skips a walked path:
`len(excludes) > 0 && shouldExclude(relPath, excludes)`. -/
def Encode.skips (relPath : Bytes) (excludes : List Bytes) : Bool :=
  decide (0 < excludes.length) && shouldExclude relPath excludes

/-! ## Vocabulary of the statements -/

/-- The pixel list of an image has one entry per point of its rectangle. -/
def Image.WF (img : Image) : Prop := img.Pix.length = img.w * img.h

/-- The colour the header loop writes at column `x` of row 0 for header bytes `m`, and the
zero value for a column the loop never reaches. -/
def headerPixel (m : Bytes) (x : Nat) : RGBA :=
  if 3 * x < m.length then ⟨m.getD (3 * x) 0, m.getD (3 * x + 1) 0, m.getD (3 * x + 2) 0, 255⟩
  else RGBA.zero

/-- The colour the payload loops write at the pixel of row-major index `k` (counted from
row 1, column 0) for payload `P`. -/
def payloadPixel (P : Bytes) (k : Nat) : RGBA :=
  if 3 * k + 2 < P.length then ⟨P.getD (3 * k) 0, P.getD (3 * k + 1) 0, P.getD (3 * k + 2) 0, 255⟩
  else if 3 * k + 1 < P.length then ⟨P.getD (3 * k) 0, P.getD (3 * k + 1) 0, 0, 253⟩
  else if 3 * k < P.length then ⟨P.getD (3 * k) 0, 0, 0, 252⟩
  else RGBA.zero

/-- The relation between the loop variable `index` and the number `k` of payload pixels
already visited: `index` is `3 * k` while payload remains, and past the end otherwise. -/
def FillInv (L k : Nat) (s : FillState) : Prop :=
  (3 * k < L → s.index = 3 * k) ∧ (L ≤ 3 * k → L ≤ s.index)

/-- Channel `j` of a colour: 0 is R, 1 is G, 2 is B, anything else A. -/
def RGBA.channel (c : RGBA) (j : Nat) : Nat :=
  match j with
  | 0 => c.R
  | 1 => c.G
  | 2 => c.B
  | _ => c.A

/-- Number of payload rows of `bytesToImage`, as the code computes it. -/
def imgHeightOf (L W : Nat) : Nat := if L % W ≠ 0 then L / W + 1 else L / W

/-- The three bytes the scan of `Decode` appends for a pixel of colour `c`. -/
def pixelBytes (c : RGBA) : Bytes :=
  [byte (c.RGBA16.1 >>> 8), byte (c.RGBA16.2.1 >>> 8), byte (c.RGBA16.2.2.1 >>> 8)]

/-- The pixel of row-major position `k` (row `k / w`, column `k % w`) takes the `break` of
the scan of `Decode`. -/
def Image.stopsAt (img : Image) (k : Nat) : Prop :=
  (img.At (k % img.w) (k / img.w)).RGBA16.2.2.2 < 255 ∧ k / img.w ≠ 0

/-- The bytes of the first `n` pixels in row-major order, three per pixel. -/
def Image.bytesUpTo (img : Image) (n : Nat) : Bytes :=
  (List.range n).flatMap fun k => pixelBytes (img.At (k % img.w) (k / img.w))

/-- The state of the scan of `Decode` after `n` pixels when `N` is the position of the
first pixel that takes the `break` (or the number of pixels when none does). -/
def scanSpec (img : Image) (N n : Nat) : ScanState :=
  if n ≤ N then ⟨img.bytesUpTo n, false⟩ else ⟨img.bytesUpTo N, true⟩

/-! ## Images: well-formedness, `Set` and `At` -/

theorem NewRGBA_WF (w h : Nat) : (NewRGBA w h).WF := by
  simp [NewRGBA, Image.WF]

theorem NewRGBA_At (w h x y : Nat) : (NewRGBA w h).At x y = RGBA.zero := by
  unfold Image.At NewRGBA
  split
  · rw [List.getD_eq_getElem?_getD, List.getElem?_replicate]
    split <;> rfl
  · rfl

@[simp] theorem Set_w (img : Image) (x y : Nat) (c : RGBA) : (img.Set x y c).w = img.w := by
  unfold Image.Set; split <;> rfl

@[simp] theorem Set_h (img : Image) (x y : Nat) (c : RGBA) : (img.Set x y c).h = img.h := by
  unfold Image.Set; split <;> rfl

theorem Set_WF {img : Image} (hwf : img.WF) (x y : Nat) (c : RGBA) : (img.Set x y c).WF := by
  unfold Image.Set Image.WF at *
  split <;> simp [hwf]

theorem offset_lt {w h x y : Nat} (hx : x < w) (hy : y < h) : y * w + x < w * h := by
  have h1 : (y + 1) * w ≤ h * w := Nat.mul_le_mul_right w hy
  rw [Nat.mul_comm w h]
  rw [Nat.add_mul] at h1
  omega

theorem offset_inj {w x y x1 y1 : Nat} (hx : x < w) (hx1 : x1 < w)
    (h : y * w + x = y1 * w + x1) : x = x1 ∧ y = y1 := by
  have hw : 0 < w := by omega
  have e1 : (y * w + x) % w = x := by
    rw [Nat.add_comm, Nat.add_mul_mod_self_right, Nat.mod_eq_of_lt hx]
  have e2 : (y1 * w + x1) % w = x1 := by
    rw [Nat.add_comm, Nat.add_mul_mod_self_right, Nat.mod_eq_of_lt hx1]
  have e3 : (y * w + x) / w = y := by
    rw [Nat.add_comm, Nat.add_mul_div_right _ _ hw, Nat.div_eq_of_lt hx]; omega
  have e4 : (y1 * w + x1) / w = y1 := by
    rw [Nat.add_comm, Nat.add_mul_div_right _ _ hw, Nat.div_eq_of_lt hx1]; omega
  rw [h] at e1 e3
  exact ⟨by omega, by omega⟩

/-- Reading after a write: the written point holds the new colour when it lies inside
the rectangle, every other point is unchanged. -/
theorem At_Set {img : Image} (hwf : img.WF) (x y : Nat) (c : RGBA) (x1 y1 : Nat) :
    (img.Set x y c).At x1 y1 =
      if x1 = x ∧ y1 = y ∧ x < img.w ∧ y < img.h then c else img.At x1 y1 := by
  unfold Image.Set
  by_cases hin : x < img.w ∧ y < img.h
  · rw [if_pos hin]
    unfold Image.At
    simp only []
    by_cases hin1 : x1 < img.w ∧ y1 < img.h
    · rw [if_pos hin1, if_pos hin1]
      rw [List.getD_eq_getElem?_getD, List.getD_eq_getElem?_getD, List.getElem?_set]
      by_cases he : x1 = x ∧ y1 = y
      · obtain ⟨rfl, rfl⟩ := he
        have hlt : y1 * img.w + x1 < img.Pix.length := by
          rw [hwf]; exact offset_lt hin.1 hin.2
        simp [hlt, hin]
      · have hne : ¬ (y * img.w + x = y1 * img.w + x1) := by
          intro h
          have := offset_inj hin.1 hin1.1 h
          exact he ⟨this.1.symm, this.2.symm⟩
        rw [if_neg hne, if_neg (by tauto)]
    · rw [if_neg hin1, if_neg hin1, if_neg]
      rintro ⟨rfl, rfl, h⟩
      exact hin1 h
  · rw [if_neg hin, if_neg (by tauto)]

/-! ## The header loop -/

theorem getD_zero_of_le (m : Bytes) (i : Nat) (h : m.length ≤ i) : m.getD i 0 = 0 := by
  rw [List.getD_eq_getElem?_getD, List.getElem?_eq_none h]; rfl

theorem metaLoop_spec (m : Bytes) : ∀ (fuel j : Nat) (img : Image), img.WF → 0 < img.h →
    m.length ≤ 3 * j + 3 * fuel →
    (metaLoop m fuel (3 * j) img).w = img.w ∧ (metaLoop m fuel (3 * j) img).h = img.h ∧
    (metaLoop m fuel (3 * j) img).WF ∧
    ∀ x y, (metaLoop m fuel (3 * j) img).At x y =
      if y = 0 ∧ j ≤ x ∧ x < img.w ∧ 3 * x < m.length then headerPixel m x else img.At x y := by
  intro fuel
  induction fuel with
  | zero =>
    intro j img hwf _ hlen
    refine ⟨rfl, rfl, hwf, ?_⟩
    intro x y
    simp only [metaLoop]
    rw [if_neg]
    rintro ⟨_, h1, _, h2⟩
    omega
  | succ fuel ih =>
    intro j img hwf hh hlen
    simp only [metaLoop]
    by_cases hlt : 3 * j < m.length
    · rw [if_pos hlt]
      have hdiv : 3 * j / 3 = j := by omega
      have hg : (if 3 * j + 1 < m.length then m.getD (3 * j + 1) 0 else 0) = m.getD (3 * j + 1) 0 := by
        split
        · rfl
        · rw [getD_zero_of_le]; omega
      have hb : (if 3 * j + 2 < m.length then m.getD (3 * j + 2) 0 else 0) = m.getD (3 * j + 2) 0 := by
        split
        · rfl
        · rw [getD_zero_of_le]; omega
      rw [hdiv, hg, hb]
      have hj : 3 * j + 3 = 3 * (j + 1) := by omega
      rw [hj]
      obtain ⟨h1, h2, h3, h4⟩ := ih (j + 1)
        (img.Set j 0 ⟨m.getD (3 * j) 0, m.getD (3 * j + 1) 0, m.getD (3 * j + 2) 0, 255⟩)
        (Set_WF hwf _ _ _) (by simpa using hh) (by omega)
      refine ⟨by simpa using h1, by simpa using h2, h3, ?_⟩
      intro x y
      rw [h4 x y, At_Set hwf]
      simp only [Set_w]
      by_cases c1 : y = 0 ∧ j + 1 ≤ x ∧ x < img.w ∧ 3 * x < m.length
      · rw [if_pos c1, if_pos ⟨c1.1, by omega, c1.2.2.1, c1.2.2.2⟩]
      · rw [if_neg c1]
        by_cases c2 : x = j ∧ y = 0 ∧ j < img.w ∧ 0 < img.h
        · obtain ⟨rfl, rfl, hjw, _⟩ := c2
          rw [if_pos ⟨rfl, rfl, hjw, hh⟩, if_pos ⟨rfl, le_refl _, hjw, hlt⟩]
          simp [headerPixel, hlt]
        · rw [if_neg c2]
          by_cases c3 : y = 0 ∧ j ≤ x ∧ x < img.w ∧ 3 * x < m.length
          · exfalso
            obtain ⟨hy, hjx, hxw, hxm⟩ := c3
            by_cases hxj : x = j
            · subst hxj; exact c2 ⟨rfl, hy, hxw, hh⟩
            · exact c1 ⟨hy, by omega, hxw, hxm⟩
          · rw [if_neg c3]
    · rw [if_neg hlt]
      refine ⟨rfl, rfl, hwf, ?_⟩
      intro x y
      rw [if_neg]
      rintro ⟨_, h1, _, h2⟩
      omega

/-! ## The payload loops -/

theorem fillPixel_spec (P : Bytes) (y x k : Nat) (s : FillState) (hinv : FillInv P.length k s) :
    FillInv P.length (k + 1) (fillPixel P P.length y s x) ∧
    (fillPixel P P.length y s x).img = s.img.Set x y (payloadPixel P k) := by
  obtain ⟨h1, h2⟩ := hinv
  unfold fillPixel
  by_cases hlt : s.index < P.length
  · have hk : 3 * k < P.length := by
      by_contra hc
      have := h2 (by omega)
      omega
    have hidx := h1 hk
    rw [if_pos hlt]
    constructor
    · constructor
      · intro _; simp only []; omega
      · intro _; simp only []; omega
    · simp only [hidx, payloadPixel]
      by_cases c2 : 3 * k + 2 < P.length
      · have c1 : 3 * k + 1 < P.length := by omega
        simp [c1, c2]
      · by_cases c1 : 3 * k + 1 < P.length
        · simp [c1, c2]
        · simp [c1, c2, hk]
  · have hk : P.length ≤ 3 * k := by
      by_contra hc
      have := h1 (by omega)
      omega
    rw [if_neg hlt]
    constructor
    · constructor
      · intro h; omega
      · intro _
        show P.length ≤ FillState.index _
        split <;> show P.length ≤ s.index <;> omega
    · have hp : payloadPixel P k = ⟨0, 0, 0, 0⟩ := by
        unfold payloadPixel
        rw [if_neg (by omega), if_neg (by omega), if_neg (by omega)]; rfl
      rw [hp]
      split <;> rfl

theorem fillRow_upTo (P : Bytes) (y k0 : Nat) (s : FillState) (hwf : s.img.WF)
    (hinv : FillInv P.length k0 s) : ∀ n, n ≤ s.img.w →
    FillInv P.length (k0 + n) ((List.range n).foldl (fillPixel P P.length y) s) ∧
    ((List.range n).foldl (fillPixel P P.length y) s).img.w = s.img.w ∧
    ((List.range n).foldl (fillPixel P P.length y) s).img.h = s.img.h ∧
    ((List.range n).foldl (fillPixel P P.length y) s).img.WF ∧
    ∀ x1 y1, ((List.range n).foldl (fillPixel P P.length y) s).img.At x1 y1 =
      if y1 = y ∧ x1 < n ∧ y < s.img.h then payloadPixel P (k0 + x1) else s.img.At x1 y1 := by
  intro n
  induction n with
  | zero =>
    intro _
    refine ⟨hinv, rfl, rfl, hwf, ?_⟩
    intro x1 y1
    rw [if_neg]
    · rfl
    · omega
  | succ n ih =>
    intro hn
    obtain ⟨i1, i2, i3, i4, i5⟩ := ih (by omega)
    rw [List.range_succ, List.foldl_append]
    simp only [List.foldl_cons, List.foldl_nil]
    obtain ⟨j1, j2⟩ := fillPixel_spec P y n (k0 + n) _ i1
    rw [j2]
    refine ⟨j1, by simpa using i2, by simpa using i3, Set_WF i4 _ _ _, ?_⟩
    intro x1 y1
    rw [At_Set i4, i5 x1 y1, i2, i3]
    by_cases c1 : x1 = n ∧ y1 = y ∧ n < s.img.w ∧ y < s.img.h
    · obtain ⟨rfl, rfl, _, hy⟩ := c1
      rw [if_pos ⟨rfl, rfl, by omega, hy⟩, if_pos ⟨rfl, by omega, hy⟩]
    · rw [if_neg c1]
      by_cases c2 : y1 = y ∧ x1 < n ∧ y < s.img.h
      · rw [if_pos c2, if_pos ⟨c2.1, by omega, c2.2.2⟩]
      · rw [if_neg c2, if_neg]
        rintro ⟨hy, hx, hh⟩
        by_cases hxn : x1 = n
        · exact c1 ⟨hxn, hy, by omega, hh⟩
        · exact c2 ⟨hy, by omega, hh⟩

theorem fillRow_spec (P : Bytes) (W y k0 : Nat) (s : FillState) (hwf : s.img.WF)
    (hw : s.img.w = W) (hy : y < s.img.h) (hinv : FillInv P.length k0 s) :
    FillInv P.length (k0 + W) (fillRow P P.length W s y) ∧
    (fillRow P P.length W s y).img.w = W ∧
    (fillRow P P.length W s y).img.h = s.img.h ∧
    (fillRow P P.length W s y).img.WF ∧
    ∀ x1 y1, (fillRow P P.length W s y).img.At x1 y1 =
      if y1 = y ∧ x1 < W then payloadPixel P (k0 + x1) else s.img.At x1 y1 := by
  obtain ⟨i1, i2, i3, i4, i5⟩ := fillRow_upTo P y k0 s hwf hinv W (by omega)
  unfold fillRow
  refine ⟨i1, by omega, i3, i4, ?_⟩
  intro x1 y1
  rw [i5 x1 y1]
  by_cases c : y1 = y ∧ x1 < W
  · rw [if_pos c, if_pos ⟨c.1, c.2, hy⟩]
  · rw [if_neg c, if_neg (by tauto)]

theorem fillRows_spec (P : Bytes) (W : Nat) (s : FillState) (hwf : s.img.WF)
    (hw : s.img.w = W) (hinv : FillInv P.length 0 s) : ∀ n, n < s.img.h →
    FillInv P.length (n * W) ((List.range' 1 n).foldl (fillRow P P.length W) s) ∧
    ((List.range' 1 n).foldl (fillRow P P.length W) s).img.w = W ∧
    ((List.range' 1 n).foldl (fillRow P P.length W) s).img.h = s.img.h ∧
    ((List.range' 1 n).foldl (fillRow P P.length W) s).img.WF ∧
    ∀ x1 y1, ((List.range' 1 n).foldl (fillRow P P.length W) s).img.At x1 y1 =
      if 1 ≤ y1 ∧ y1 ≤ n ∧ x1 < W then payloadPixel P ((y1 - 1) * W + x1)
      else s.img.At x1 y1 := by
  intro n
  induction n with
  | zero =>
    intro _
    refine ⟨by simpa using hinv, hw, rfl, hwf, ?_⟩
    intro x1 y1
    rw [if_neg]
    · rfl
    · omega
  | succ n ih =>
    intro hn
    obtain ⟨i1, i2, i3, i4, i5⟩ := ih (by omega)
    rw [List.range'_1_concat, List.foldl_append]
    simp only [List.foldl_cons, List.foldl_nil]
    obtain ⟨j1, j2, j3, j4, j5⟩ := fillRow_spec P W (1 + n) (n * W) _ i4 i2 (by omega) i1
    have hmul : n * W + W = (n + 1) * W := by rw [Nat.add_mul]; omega
    refine ⟨by rw [← hmul]; exact j1, j2, by omega, j4, ?_⟩
    intro x1 y1
    rw [j5 x1 y1, i5 x1 y1]
    by_cases c1 : y1 = 1 + n ∧ x1 < W
    · obtain ⟨rfl, hx⟩ := c1
      rw [if_pos ⟨rfl, hx⟩, if_pos ⟨by omega, by omega, hx⟩]
      have : 1 + n - 1 = n := by omega
      rw [this]
    · rw [if_neg c1]
      by_cases c2 : 1 ≤ y1 ∧ y1 ≤ n ∧ x1 < W
      · rw [if_pos c2, if_pos ⟨c2.1, by omega, c2.2.2⟩]
      · rw [if_neg c2, if_neg]
        rintro ⟨h1, h2, h3⟩
        by_cases hy : y1 = 1 + n
        · exact c1 ⟨hy, h3⟩
        · exact c2 ⟨h1, by omega, h3⟩

/-- The grid `bytesToImage` builds, point by point: for a width of at least 1 the call
returns an image of width `W` and height `imgHeightOf L W + 1` whose row 0 holds the header
pixels (as far as they fit) and whose rows from 1 on hold the payload pixels in row-major
order. -/
theorem bytesToImage_spec (label P : Bytes) (W : Nat) (hW : 1 ≤ W) :
    ∃ img, bytesToImage label P W = .value img ∧ img.w = W ∧
      img.h = imgHeightOf P.length W + 1 ∧ img.WF ∧
      ∀ x y, img.At x y =
        if x < W ∧ y < imgHeightOf P.length W + 1 then
          (if y = 0 then headerPixel (Sprintf label P.length) x
           else payloadPixel P ((y - 1) * W + x))
        else RGBA.zero := by
  have hW0 : W ≠ 0 := by omega
  have hH : (if P.length % W ≠ 0 then P.length / W + 1 else P.length / W)
      = imgHeightOf P.length W := rfl
  obtain ⟨m1, m2, m3, m4⟩ := metaLoop_spec (Sprintf label P.length)
    (Sprintf label P.length).length 0 (NewRGBA W (imgHeightOf P.length W + 1))
    (NewRGBA_WF _ _) (by simp [NewRGBA]) (by omega)
  simp only [Nat.mul_zero] at m1 m2 m3 m4
  have hinv0 : FillInv P.length 0 ⟨0, 0, 0, metaLoop (Sprintf label P.length)
      (Sprintf label P.length).length 0 (NewRGBA W (imgHeightOf P.length W + 1))⟩ := by
    constructor
    · intro _; rfl
    · intro h; simpa using h
  obtain ⟨f1, f2, f3, f4, f5⟩ := fillRows_spec P W _ m3 (by rw [m1]; rfl) hinv0
    (imgHeightOf P.length W) (by rw [m2]; simp [NewRGBA])
  refine ⟨_, ?_, f2, ?_, f4, ?_⟩
  · unfold bytesToImage
    simp only [hW0, if_false, hH]
  · rw [f3, m2]; rfl
  · intro x y
    rw [f5 x y, m4 x y, NewRGBA_At]
    simp only [NewRGBA]
    by_cases hin : x < W ∧ y < imgHeightOf P.length W + 1
    · rw [if_pos hin]
      by_cases hy : y = 0
      · subst hy
        rw [if_neg (by omega), if_pos rfl]
        unfold headerPixel
        by_cases hm : 3 * x < (Sprintf label P.length).length
        · rw [if_pos ⟨rfl, Nat.zero_le _, hin.1, hm⟩, if_pos hm]
        · rw [if_neg (by tauto), if_neg hm]
      · rw [if_pos ⟨by omega, by omega, hin.1⟩, if_neg hy]
    · rw [if_neg hin, if_neg (by omega), if_neg]
      · rintro ⟨rfl, _, h1, _⟩
        exact hin ⟨h1, by omega⟩

/-! ## Decimal text, splitting and cleaning -/

theorem isDigit_lt {c : Nat} (h : isDigit c = true) : c < 256 := by
  simp [isDigit] at h; omega

theorem isDigit_ne_bar {c : Nat} (h : isDigit c = true) : c ≠ 124 := by
  simp [isDigit] at h; omega

theorem digitsValue_append (a : Bytes) (d : Nat) :
    digitsValue (a ++ [d]) = digitsValue a * 10 + (d - 48) := by
  simp [digitsValue, List.foldl_append]

theorem itoaLoop_spec : ∀ (fuel n : Nat) (acc : Bytes), n < fuel →
    ∃ ds : Bytes, itoaLoop fuel n acc = ds ++ acc ∧ ds ≠ [] ∧
      (∀ d ∈ ds, isDigit d = true) ∧ digitsValue ds = n := by
  intro fuel
  induction fuel with
  | zero => intro n acc h; omega
  | succ fuel ih =>
    intro n acc hn
    simp only [itoaLoop]
    by_cases h10 : n < 10
    · rw [if_pos h10]
      refine ⟨[48 + n], rfl, by simp, ?_, ?_⟩
      · intro d hd
        simp only [List.mem_singleton] at hd
        subst hd
        simp [isDigit]; omega
      · simp [digitsValue]
    · rw [if_neg h10]
      obtain ⟨ds, e, hne, hdig, hval⟩ := ih (n / 10) ((48 + n % 10) :: acc) (by omega)
      refine ⟨ds ++ [48 + n % 10], by rw [e]; simp, by simp, ?_, ?_⟩
      · intro d hd
        rcases List.mem_append.mp hd with h | h
        · exact hdig d h
        · simp only [List.mem_singleton] at h
          subst h
          simp [isDigit]; omega
      · rw [digitsValue_append, hval]
        omega

theorem itoa_spec (n : Nat) :
    itoa n ≠ [] ∧ (∀ d ∈ itoa n, isDigit d = true) ∧ digitsValue (itoa n) = n := by
  obtain ⟨ds, e, hne, hdig, hval⟩ := itoaLoop_spec (n + 1) n [] (by omega)
  unfold itoa
  rw [e, List.append_nil]
  exact ⟨hne, hdig, hval⟩

theorem Atoi_digits (s : Bytes) (hne : s ≠ []) (hdig : ∀ d ∈ s, isDigit d = true)
    (hr : digitsValue s < 2 ^ 63) : Atoi s = .ok (digitsValue s : Int) := by
  cases s with
  | nil => exact absurd rfl hne
  | cons c cs =>
    have hc : isDigit c = true := hdig c (List.mem_cons_self _ _)
    have hc1 : ¬ (c = 45 ∨ c = 43) := by
      simp [isDigit] at hc; omega
    have hc2 : ¬ (c = 45) := by
      simp [isDigit] at hc; omega
    have hall : (c :: cs).all isDigit = true := List.all_eq_true.mpr hdig
    simp only [Atoi, if_neg hc1]
    rw [if_neg (by simp), if_neg (by rw [hall]; simp)]
    simp only [hc2, decide_False, Bool.false_eq_true, if_false]
    rw [if_pos hr]

theorem Atoi_itoa (n : Nat) (hn : n < 2 ^ 63) : Atoi (itoa n) = .ok (n : Int) := by
  obtain ⟨hne, hdig, hval⟩ := itoa_spec n
  have := Atoi_digits (itoa n) hne hdig (by rw [hval]; exact hn)
  rw [hval] at this
  exact this

theorem Split_of_not_mem (sep : Nat) : ∀ s : Bytes, sep ∉ s → Split sep s = [s] := by
  intro s
  induction s with
  | nil => intro _; rfl
  | cons c cs ih =>
    intro h
    have hc : c ≠ sep := fun e => h (by rw [e]; exact List.mem_cons_self _ _)
    have hcs : sep ∉ cs := fun e => h (List.mem_cons_of_mem _ e)
    simp only [Split, if_neg hc, ih hcs]

theorem Split_append (sep : Nat) (b : Bytes) : ∀ a : Bytes, sep ∉ a →
    Split sep (a ++ sep :: b) = a :: Split sep b := by
  intro a
  induction a with
  | nil => intro _; simp [Split]
  | cons c cs ih =>
    intro h
    have hc : c ≠ sep := fun e => h (by rw [e]; exact List.mem_cons_self _ _)
    have hcs : sep ∉ cs := fun e => h (List.mem_cons_of_mem _ e)
    have e : (c :: cs) ++ sep :: b = c :: (cs ++ sep :: b) := rfl
    rw [e]
    simp only [Split, if_neg hc, ih hcs]

theorem ReplaceAllString_digits_zeros (ds : Bytes) (n : Nat)
    (hdig : ∀ d ∈ ds, isDigit d = true) :
    ReplaceAllString (ds ++ List.replicate n 0) = ds := by
  unfold ReplaceAllString
  rw [List.filter_append, List.filter_eq_self.mpr hdig]
  have : (List.replicate n 0).filter isDigit = [] := by
    rw [List.filter_eq_nil_iff]
    intro a ha
    rw [List.eq_of_mem_replicate ha]
    decide
  rw [this, List.append_nil]

/-! ## The header row read back -/

set_option maxRecDepth 100000 in
theorem byte_RGBA16 : ∀ v, v < 256 → byte ((v ||| (v <<< 8)) >>> 8) = v := by
  unfold byte
  decide

theorem getD_lt_256 {m : Bytes} (hm : IsBytes m) (i : Nat) : m.getD i 0 < 256 := by
  rw [List.getD_eq_getElem?_getD]
  by_cases h : i < m.length
  · rw [List.getElem?_eq_getElem h]
    exact hm _ (List.getElem_mem _)
  · rw [List.getElem?_eq_none (by omega)]
    decide

theorem headerPixel_R (m : Bytes) (x : Nat) : (headerPixel m x).R = m.getD (3 * x) 0 := by
  unfold headerPixel
  split
  · rfl
  · rw [getD_zero_of_le _ _ (by omega)]; rfl

theorem headerPixel_G (m : Bytes) (x : Nat) : (headerPixel m x).G = m.getD (3 * x + 1) 0 := by
  unfold headerPixel
  split
  · rfl
  · rw [getD_zero_of_le _ _ (by omega)]; rfl

theorem headerPixel_B (m : Bytes) (x : Nat) : (headerPixel m x).B = m.getD (3 * x + 2) 0 := by
  unfold headerPixel
  split
  · rfl
  · rw [getD_zero_of_le _ _ (by omega)]; rfl

theorem metaBytes_upTo (img : Image) (m : Bytes) (hm : IsBytes m)
    (hrow : ∀ x, x < img.w → img.At x 0 = headerPixel m x) : ∀ n, n ≤ img.w →
    (List.range n).foldl
      (fun acc x =>
        let c := (img.At x 0).RGBA16
        acc ++ [byte (c.1 >>> 8), byte (c.2.1 >>> 8), byte (c.2.2.1 >>> 8)])
      [] = (List.range (3 * n)).map (fun i => m.getD i 0) := by
  intro n
  induction n with
  | zero => intro _; rfl
  | succ n ih =>
    intro hn
    rw [List.range_succ, List.foldl_append, ih (by omega)]
    have e3 : 3 * (n + 1) = 3 * n + 1 + 1 + 1 := by omega
    rw [e3, List.range_succ, List.range_succ, List.range_succ]
    simp only [List.foldl_cons, List.foldl_nil, List.map_append, List.map_cons, List.map_nil,
      List.append_assoc, List.singleton_append]
    rw [hrow n (by omega)]
    simp only [RGBA.RGBA16, headerPixel_R, headerPixel_G, headerPixel_B]
    rw [byte_RGBA16 _ (getD_lt_256 hm _), byte_RGBA16 _ (getD_lt_256 hm _),
      byte_RGBA16 _ (getD_lt_256 hm _)]
    rfl

theorem map_getD_range (m : Bytes) (N : Nat) (h : m.length ≤ N) :
    (List.range N).map (fun i => m.getD i 0) = m ++ List.replicate (N - m.length) 0 := by
  apply List.ext_getElem
  · simp; omega
  · intro i h1 h2
    simp only [List.getElem_map, List.getElem_range]
    by_cases hi : i < m.length
    · rw [List.getElem_append_left hi, List.getD_eq_getElem?_getD, List.getElem?_eq_getElem hi]
      rfl
    · rw [List.getElem_append_right (by omega), List.getElem_replicate,
        getD_zero_of_le _ _ (by omega)]

/-- Reading back row 0 of an image whose row 0 holds the header pixels of `m`: the header
bytes, then zero bytes up to three per column. -/
theorem metaBytes_of_headerRow (img : Image) (m : Bytes) (hm : IsBytes m)
    (hfit : m.length ≤ 3 * img.w)
    (hrow : ∀ x, x < img.w → img.At x 0 = headerPixel m x) :
    Decode.metaBytes img = m ++ List.replicate (3 * img.w - m.length) 0 := by
  unfold Decode.metaBytes
  rw [metaBytes_upTo img m hm hrow img.w (le_refl _), map_getD_range m _ hfit]

theorem Sprintf_IsBytes (label : Bytes) (n : Nat) (hl : IsBytes label) :
    IsBytes (Sprintf label n) := by
  intro b hb
  unfold Sprintf at hb
  rcases List.mem_append.mp hb with h | h
  · exact hl b h
  · rcases List.mem_cons.mp h with h | h
    · omega
    · exact isDigit_lt ((itoa_spec n).2.1 b h)

theorem header_of_headerRow (img : Image) (label : Bytes) (n : Nat) (hl : IsBytes label)
    (hbar : 124 ∉ label) (hn : n < 2 ^ 63) (hfit : (Sprintf label n).length ≤ 3 * img.w)
    (hrow : ∀ x, x < img.w → img.At x 0 = headerPixel (Sprintf label n) x) :
    Decode.header img = .value (label, (n : Int)) := by
  obtain ⟨hne, hdig, hval⟩ := itoa_spec n
  unfold Decode.header
  rw [metaBytes_of_headerRow img _ (Sprintf_IsBytes label n hl) hfit hrow]
  have e : Sprintf label n ++ List.replicate (3 * img.w - (Sprintf label n).length) 0
      = label ++ 124 :: (itoa n ++ List.replicate (3 * img.w - (Sprintf label n).length) 0) := by
    simp [Sprintf]
  have hnb : (124 : Nat) ∉ itoa n ++ List.replicate (3 * img.w - (Sprintf label n).length) 0 := by
    intro h
    rcases List.mem_append.mp h with h | h
    · exact isDigit_ne_bar (hdig _ h) rfl
    · have := List.eq_of_mem_replicate h
      omega
  rw [e, Split_append 124 _ label hbar, Split_of_not_mem 124 _ hnb]
  simp only [ReplaceAllString_digits_zeros _ _ hdig, Atoi_itoa n hn]

/-! ## The height of the grid -/

theorem le_imgHeightOf_mul (L W : Nat) (hW : 1 ≤ W) : L ≤ imgHeightOf L W * W := by
  have h1 := Nat.div_add_mod L W
  have h2 : L % W < W := Nat.mod_lt _ (by omega)
  have h3 : W * (L / W) = L / W * W := Nat.mul_comm _ _
  unfold imgHeightOf
  split
  · rw [Nat.add_mul]; omega
  · omega

theorem imgHeightOf_le_iff (L W n : Nat) (hW : 1 ≤ W) : imgHeightOf L W ≤ n ↔ L ≤ n * W := by
  have h1 := Nat.div_add_mod L W
  have h2 : L % W < W := Nat.mod_lt _ (by omega)
  have h3 : W * (L / W) = L / W * W := Nat.mul_comm _ _
  unfold imgHeightOf
  constructor
  · intro h
    split at h
    · have : (L / W + 1) * W ≤ n * W := Nat.mul_le_mul_right W h
      rw [Nat.add_mul] at this
      omega
    · have : L / W * W ≤ n * W := Nat.mul_le_mul_right W h
      omega
  · intro h
    have hq : L / W ≤ n := Nat.div_le_of_le_mul (by rw [Nat.mul_comm]; exact h)
    split
    · rename_i hmod
      by_contra hc
      have hn : n = L / W := by omega
      rw [hn] at h
      omega
    · exact hq

theorem imgHeightOf_eq_ceil (L W : Nat) (hW : 1 ≤ W) :
    imgHeightOf L W = ⌈(L : ℚ) / (W : ℚ)⌉₊ := by
  have hWq : (0 : ℚ) < (W : ℚ) := by exact_mod_cast hW
  apply le_antisymm
  · rw [imgHeightOf_le_iff L W _ hW]
    have h := Nat.le_ceil ((L : ℚ) / (W : ℚ))
    rw [div_le_iff₀ hWq] at h
    exact_mod_cast h
  · rw [Nat.ceil_le, div_le_iff₀ hWq]
    exact_mod_cast le_imgHeightOf_mul L W hW

/-! ## Payload pixels of the packed grid -/

theorem getD_eq_getElem_of_lt (P : Bytes) (i : Nat) (h : i < P.length) : P.getD i 0 = P[i] := by
  rw [List.getD_eq_getElem?_getD, List.getElem?_eq_getElem h]; rfl

theorem payload_at {img : Image} {P : Bytes} {W : Nat} (hW : 1 ≤ W) (hw : img.w = W)
    (hh : img.h = imgHeightOf P.length W + 1)
    (hat : ∀ x y, img.At x y =
        if x < W ∧ y < imgHeightOf P.length W + 1 then
          (if y = 0 then headerPixel (Sprintf label P.length) x
           else payloadPixel P ((y - 1) * W + x))
        else RGBA.zero)
    (k : Nat) (hk : 3 * k < P.length) :
    k % W < img.w ∧ 1 + k / W < img.h ∧ img.At (k % W) (1 + k / W) = payloadPixel P k := by
  have hx : k % W < W := Nat.mod_lt _ (by omega)
  have hcap := le_imgHeightOf_mul P.length W hW
  have hy : k / W < imgHeightOf P.length W := by
    apply Nat.div_lt_of_lt_mul
    rw [Nat.mul_comm]
    omega
  have e : (1 + k / W - 1) * W + k % W = k := by
    have : 1 + k / W - 1 = k / W := Nat.add_sub_cancel_left 1 (k / W)
    rw [this, Nat.mul_comm]
    exact Nat.div_add_mod k W
  generalize k / W = q at hy e ⊢
  generalize k % W = r at hx e ⊢
  refine ⟨by omega, by omega, ?_⟩
  rw [hat, if_pos ⟨hx, by omega⟩, if_neg (by omega), e]

/-! ## The claims -/

/-- C1 (round trip), evaluated on the code at label "a" and width 2, where the header text
has 3 bytes and fits in 6: the scan of `Decode` does not return the payload.  For the
payload 0x41 0x42 0x43 it returns the six R, G, B bytes of row 0 and then the payload; for
the payload 0x41 0x42 0x43 0x44 it returns the six bytes of row 0, the payload and two zero
bytes. -/
theorem C1_scan_of_packed_grid :
    (∃ img, bytesToImage [97] [65, 66, 67] 2 = .value img ∧
      Decode.scan img = [97, 124, 51, 0, 0, 0, 65, 66, 67] ∧
      Decode.scan img ≠ [65, 66, 67]) ∧
    (∃ img, bytesToImage [97] [65, 66, 67, 68] 2 = .value img ∧
      Decode.scan img = [97, 124, 52, 0, 0, 0, 65, 66, 67, 68, 0, 0] ∧
      Decode.scan img ≠ [65, 66, 67, 68]) :=
  ⟨⟨_, rfl, by decide, by decide⟩, ⟨_, rfl, by decide, by decide⟩⟩

/-- C2 (header fidelity): for a width of at least 1, a label of bytes without the
separator 124 and a payload whose length is a Go `int`, when the header text fits in `3 * W`
bytes the header recovery of `Decode` on the packed grid returns the label unchanged and
the payload length. -/
theorem C2_header_fidelity (label P : Bytes) (W : Nat) (hW : 1 ≤ W) (hl : IsBytes label)
    (hbar : 124 ∉ label) (hlen : P.length < 2 ^ 63)
    (hfit : (Sprintf label P.length).length ≤ 3 * W) :
    ∃ img, bytesToImage label P W = .value img ∧
      Decode.header img = .value (label, (P.length : Int)) := by
  obtain ⟨img, hv, hw, hh, _, hat⟩ := bytesToImage_spec label P W hW
  refine ⟨img, hv, ?_⟩
  apply header_of_headerRow img label P.length hl hbar hlen (by rw [hw]; exact hfit)
  intro x hx
  rw [hat, if_pos ⟨by omega, by omega⟩, if_pos rfl]

/-- C2 at label "a", payload 0x41 0x42 0x43 0x44 and width 2. -/
theorem C2_header_fidelity_witness :
    ∃ img, bytesToImage [97] [65, 66, 67, 68] 2 = .value img ∧
      Decode.header img = .value ([97], ((4 : Nat) : Int)) :=
  C2_header_fidelity [97] [65, 66, 67, 68] 2 (by decide) (by decide) (by decide) (by decide)
    (by decide)

/-- C3 as stated fails: with two payload bytes left the last payload pixel has alpha 253,
not 254, and with one byte left it has alpha 252, not 253. -/
theorem C3_counterexample :
    (∃ img, bytesToImage [97] [65, 66] 1 = .value img ∧
      img.At 0 1 = ⟨65, 66, 0, 253⟩ ∧ img.At 0 1 ≠ ⟨65, 66, 0, 254⟩) ∧
    (∃ img, bytesToImage [97] [65] 1 = .value img ∧
      img.At 0 1 = ⟨65, 0, 0, 252⟩ ∧ img.At 0 1 ≠ ⟨65, 0, 0, 253⟩) :=
  ⟨⟨_, rfl, by decide, by decide⟩, ⟨_, rfl, by decide, by decide⟩⟩

/-- C3 amended (sentinel alpha of the final partial pixel): the pixel of row-major index
`L / 3` lies inside the grid; when `L % 3 = 2` it is `(P[L-2], P[L-1], 0, 253)` and when
`L % 3 = 1` it is `(P[L-1], 0, 0, 252)`: the alpha is 255 less 2 for a missing blue byte and
less 1 more for a missing green byte. -/
theorem C3_sentinel_alpha (label P : Bytes) (W : Nat) (hW : 1 ≤ W) :
    ∃ img, bytesToImage label P W = .value img ∧
      (∀ h : P.length % 3 = 2,
        P.length / 3 % W < img.w ∧ 1 + P.length / 3 / W < img.h ∧
        img.At (P.length / 3 % W) (1 + P.length / 3 / W)
          = ⟨P[P.length - 2], P[P.length - 1], 0, 253⟩) ∧
      (∀ h : P.length % 3 = 1,
        P.length / 3 % W < img.w ∧ 1 + P.length / 3 / W < img.h ∧
        img.At (P.length / 3 % W) (1 + P.length / 3 / W)
          = ⟨P[P.length - 1], 0, 0, 252⟩) := by
  obtain ⟨img, hv, hw, hh, _, hat⟩ := bytesToImage_spec label P W hW
  refine ⟨img, hv, ?_, ?_⟩
  · intro h
    obtain ⟨a, b, c⟩ := payload_at hW hw hh hat (P.length / 3) (by omega)
    refine ⟨a, b, ?_⟩
    rw [c]
    unfold payloadPixel
    rw [if_neg (by omega), if_pos (by omega)]
    have e0 : 3 * (P.length / 3) = P.length - 2 := by omega
    have e1 : 3 * (P.length / 3) + 1 = P.length - 1 := by omega
    rw [e1, e0, getD_eq_getElem_of_lt P _ (by omega), getD_eq_getElem_of_lt P _ (by omega)]
  · intro h
    obtain ⟨a, b, c⟩ := payload_at hW hw hh hat (P.length / 3) (by omega)
    refine ⟨a, b, ?_⟩
    rw [c]
    unfold payloadPixel
    rw [if_neg (by omega), if_neg (by omega), if_pos (by omega)]
    have e0 : 3 * (P.length / 3) = P.length - 1 := by omega
    rw [e0, getD_eq_getElem_of_lt P _ (by omega)]

/-- C3 amended, at label "a", payload 0x41 0x42 and width 1. -/
theorem C3_sentinel_alpha_witness :
    ∃ img, bytesToImage [97] [65, 66] 1 = .value img ∧ img.At 0 1 = ⟨65, 66, 0, 253⟩ := by
  obtain ⟨img, hv, h2, _⟩ := C3_sentinel_alpha [97] [65, 66] 1 (by decide)
  exact ⟨img, hv, (h2 rfl).2.2⟩

/-- C4 (capacity invariant): for a width of at least 1 the packer returns a grid of width
`W` and height `⌈L / W⌉ + 1`, and an empty payload gives a grid of height 1. -/
theorem C4_capacity (label P : Bytes) (W : Nat) (hW : 1 ≤ W) :
    ∃ img, bytesToImage label P W = .value img ∧ img.w = W ∧
      img.h = ⌈(P.length : ℚ) / (W : ℚ)⌉₊ + 1 ∧ (P = [] → img.h = 1) := by
  obtain ⟨img, hv, hw, hh, _, _⟩ := bytesToImage_spec label P W hW
  refine ⟨img, hv, hw, ?_, ?_⟩
  · rw [hh, imgHeightOf_eq_ceil _ _ hW]
  · intro hP
    rw [hh, hP]
    simp [imgHeightOf]

/-- C4 at label "a", payload 0x41 0x42 0x43 0x44 and width 2: the grid is 2 wide and 3 high. -/
theorem C4_capacity_witness :
    ∃ img, bytesToImage [97] [65, 66, 67, 68] 2 = .value img ∧ img.w = 2 ∧ img.h = 3 := by
  obtain ⟨img, hv, hw, hh, _⟩ := C4_capacity [97] [65, 66, 67, 68] 2 (by decide)
  refine ⟨img, hv, hw, ?_⟩
  rw [hh]
  norm_num

/-- C5 (payload layout): for a width of at least 1 and a pixel index `k` with
`3 * k + 3 ≤ L`, the point at row `1 + k / W`, column `k % W` lies inside the packed grid
and holds `(P[3k], P[3k+1], P[3k+2], 255)`. -/
theorem C5_payload_layout (label P : Bytes) (W k : Nat) (hW : 1 ≤ W)
    (hk : 3 * k + 3 ≤ P.length) :
    ∃ img, bytesToImage label P W = .value img ∧
      k % W < img.w ∧ 1 + k / W < img.h ∧
      img.At (k % W) (1 + k / W) = ⟨P[3 * k], P[3 * k + 1], P[3 * k + 2], 255⟩ := by
  obtain ⟨img, hv, hw, hh, _, hat⟩ := bytesToImage_spec label P W hW
  obtain ⟨a, b, c⟩ := payload_at hW hw hh hat k (by omega)
  refine ⟨img, hv, a, b, ?_⟩
  rw [c]
  unfold payloadPixel
  rw [if_pos (by omega), getD_eq_getElem_of_lt P _ (by omega),
    getD_eq_getElem_of_lt P _ (by omega), getD_eq_getElem_of_lt P _ (by omega)]

/-- C5 at a payload of 7 bytes, width 2 and pixel index 1. -/
theorem C5_payload_layout_witness :
    ∃ img, bytesToImage [97] [65, 66, 67, 68, 69, 70, 71] 2 = .value img ∧
      1 < img.w ∧ 1 < img.h ∧ img.At 1 1 = ⟨68, 69, 70, 255⟩ := by
  obtain ⟨img, hv, a, b, c⟩ :=
    C5_payload_layout [97] [65, 66, 67, 68, 69, 70, 71] 2 1 (by decide) (by decide)
  exact ⟨img, hv, a, b, c⟩

/-- C6 (padding): in the packed grid every point of a row from 1 on whose row-major index
`k = (y - 1) * W + x` has `3 * k ≥ L` is the zero pixel. -/
theorem C6_padding (label P : Bytes) (W : Nat) (hW : 1 ≤ W) :
    ∃ img, bytesToImage label P W = .value img ∧
      ∀ x y, x < img.w → 1 ≤ y → y < img.h → P.length ≤ 3 * ((y - 1) * W + x) →
        img.At x y = ⟨0, 0, 0, 0⟩ := by
  obtain ⟨img, hv, hw, hh, _, hat⟩ := bytesToImage_spec label P W hW
  refine ⟨img, hv, ?_⟩
  intro x y hx hy1 hy hk
  rw [hat, if_pos ⟨by omega, by omega⟩, if_neg (by omega)]
  unfold payloadPixel
  rw [if_neg (by omega), if_neg (by omega), if_neg (by omega)]
  rfl

/-- C6 at label "a", payload 0x41 0x42 0x43 0x44 and width 2: row 2 is padding. -/
theorem C6_padding_witness :
    ∃ img, bytesToImage [97] [65, 66, 67, 68] 2 = .value img ∧
      img.At 0 2 = ⟨0, 0, 0, 0⟩ ∧ img.At 1 2 = ⟨0, 0, 0, 0⟩ := by
  obtain ⟨img, hv, hp⟩ := C6_padding [97] [65, 66, 67, 68] 2 (by decide)
  have e : bytesToImage [97] [65, 66, 67, 68] 2 = .value
      ⟨2, 3, [⟨97, 124, 52, 255⟩, ⟨0, 0, 0, 0⟩, ⟨65, 66, 67, 255⟩, ⟨68, 0, 0, 252⟩,
        ⟨0, 0, 0, 0⟩, ⟨0, 0, 0, 0⟩]⟩ := by decide
  have himg := Outcome.value.inj (hv.symm.trans e)
  subst himg
  exact ⟨_, hv, hp 0 2 (by decide) (by decide) (by decide) (by decide),
    hp 1 2 (by decide) (by decide) (by decide) (by decide)⟩

/-- C7 (header row layout): when the header text `m` fits in `3 * W` bytes, byte `m[i]` is
channel `i % 3` of column `i / 3` of row 0; every column below `⌈len m / 3⌉` has alpha 255,
the channels of the last written pixel that hold no header byte are 0; and every column
from `⌈len m / 3⌉` on is the zero pixel. -/
theorem C7_header_row (label P : Bytes) (W : Nat) (hW : 1 ≤ W)
    (hfit : (Sprintf label P.length).length ≤ 3 * W) :
    ∃ img, bytesToImage label P W = .value img ∧
      (∀ i (hi : i < (Sprintf label P.length).length),
        (img.At (i / 3) 0).channel (i % 3) = (Sprintf label P.length)[i]) ∧
      (∀ x, x < ((Sprintf label P.length).length + 2) / 3 → (img.At x 0).A = 255) ∧
      ((Sprintf label P.length).length % 3 = 1 →
        (img.At ((Sprintf label P.length).length / 3) 0).G = 0 ∧
        (img.At ((Sprintf label P.length).length / 3) 0).B = 0) ∧
      ((Sprintf label P.length).length % 3 = 2 →
        (img.At ((Sprintf label P.length).length / 3) 0).B = 0) ∧
      (∀ x, ((Sprintf label P.length).length + 2) / 3 ≤ x → x < W →
        img.At x 0 = ⟨0, 0, 0, 0⟩) := by
  obtain ⟨img, hv, hw, hh, _, hat⟩ := bytesToImage_spec label P W hW
  have hrow : ∀ x, x < W → img.At x 0 = headerPixel (Sprintf label P.length) x := by
    intro x hx
    rw [hat, if_pos ⟨hx, by omega⟩, if_pos rfl]
  generalize Sprintf label P.length = m at hfit hrow ⊢
  refine ⟨img, hv, ?_, ?_, ?_, ?_, ?_⟩
  · intro i hi
    rw [hrow (i / 3) (by omega), ← getD_eq_getElem_of_lt m i hi]
    have h3 : i % 3 = 0 ∨ i % 3 = 1 ∨ i % 3 = 2 := by omega
    rcases h3 with h | h | h
    · rw [h]
      show (headerPixel m (i / 3)).R = _
      rw [headerPixel_R]
      congr 1; omega
    · rw [h]
      show (headerPixel m (i / 3)).G = _
      rw [headerPixel_G]
      congr 1; omega
    · rw [h]
      show (headerPixel m (i / 3)).B = _
      rw [headerPixel_B]
      congr 1; omega
  · intro x hx
    rw [hrow x (by omega)]
    unfold headerPixel
    rw [if_pos (by omega)]
  · intro h
    rw [hrow _ (by omega), headerPixel_G, headerPixel_B,
      getD_zero_of_le _ _ (by omega), getD_zero_of_le _ _ (by omega)]
    exact ⟨rfl, rfl⟩
  · intro h
    rw [hrow _ (by omega), headerPixel_B, getD_zero_of_le _ _ (by omega)]
  · intro x hx hxW
    rw [hrow x hxW]
    unfold headerPixel
    rw [if_neg (by omega)]
    rfl

/-- C7 at label "ab", payload 0x41 0x42 0x43 0x44 and width 2, where the header text
"ab|4" has 4 bytes. -/
theorem C7_header_row_witness :
    ∃ img, bytesToImage [97, 98] [65, 66, 67, 68] 2 = .value img ∧
      (img.At 0 0).channel 0 = 97 ∧ (img.At 0 0).channel 1 = 98 ∧
      (img.At 0 0).channel 2 = 124 ∧ (img.At 1 0).channel 0 = 52 ∧
      (img.At 0 0).A = 255 ∧ (img.At 1 0).A = 255 ∧
      ((img.At 1 0).G = 0 ∧ (img.At 1 0).B = 0) := by
  obtain ⟨img, hv, h1, h2, h3, _, _⟩ :=
    C7_header_row [97, 98] [65, 66, 67, 68] 2 (by decide) (by decide)
  exact ⟨img, hv, h1 0 (by decide), h1 1 (by decide), h1 2 (by decide), h1 3 (by decide),
    h2 0 (by decide), h2 1 (by decide), h3 (by decide)⟩

/-- C8 (scan termination), evaluated on the code at a grid of width 2 and height 2 whose
row 0 reads "x|5" and three NUL bytes, so that the header recovery succeeds (label "x",
length 5) and the scan runs, and whose point at row 1, column 0 has alpha 254 and is the
first point of the rows from 1 on with an alpha below 255: the scan does not stop there;
the three bytes of that point and the bytes 10, 11, 12 of the point after it are in the
result. -/
theorem C8_scan_passes_alpha_254 :
    (Image.At ⟨2, 2, [⟨120, 124, 53, 255⟩, ⟨0, 0, 0, 0⟩, ⟨0, 0, 0, 254⟩, ⟨10, 11, 12, 255⟩]⟩
      0 1).A = 254 ∧
    Decode.unpack ⟨2, 2, [⟨120, 124, 53, 255⟩, ⟨0, 0, 0, 0⟩, ⟨0, 0, 0, 254⟩, ⟨10, 11, 12, 255⟩]⟩
      = .value ([120], 5, [120, 124, 53, 0, 0, 0, 0, 0, 0, 10, 11, 12]) := by
  decide

/-- C9 (row 0 is never payload), evaluated on the code at grids whose row 0 reads "x|5", so
that the header recovery succeeds (label "x", length 5) and the scan runs: a grid of
height 1 yields the three R, G, B bytes of its only point, not the empty payload, and on a
grid of height 2 the first byte returned is the R channel of row 0, column 0, not that of
row 1. -/
theorem C9_scan_includes_row_zero :
    Decode.unpack ⟨1, 1, [⟨120, 124, 53, 255⟩]⟩ = .value ([120], 5, [120, 124, 53]) ∧
    Decode.unpack ⟨1, 2, [⟨120, 124, 53, 255⟩, ⟨7, 8, 9, 255⟩]⟩
      = .value ([120], 5, [120, 124, 53, 7, 8, 9]) := by
  decide

/-- C10 (malformed header), on the code: for every grid whose row-0 bytes contain no
separator 124, `strings.Split` returns one part and the header recovery stops with the
run-time panic of `metaParts[1]`; no error value is returned to the caller. -/
theorem C10_no_separator_panics (img : Image) (h : 124 ∉ Decode.metaBytes img) :
    Decode.header img = .crash "index out of range [1] with length 1" ∧
    Decode.unpack img = .crash "index out of range [1] with length 1" := by
  have e : Decode.header img = .crash "index out of range [1] with length 1" := by
    unfold Decode.header
    rw [Split_of_not_mem 124 _ h]
  refine ⟨e, ?_⟩
  unfold Decode.unpack
  rw [e]

/-- C10 at the grid of width 1 and height 1 whose only point is the zero pixel. -/
theorem C10_no_separator_panics_witness :
    Decode.header ⟨1, 1, [⟨0, 0, 0, 0⟩]⟩ = .crash "index out of range [1] with length 1" ∧
    Decode.unpack ⟨1, 1, [⟨0, 0, 0, 0⟩]⟩ = .crash "index out of range [1] with length 1" :=
  C10_no_separator_panics ⟨1, 1, [⟨0, 0, 0, 0⟩]⟩ (by decide)

/-! ## The size field -/

theorem Split_head (sep : Nat) : ∀ s : Bytes,
    ∃ tl, Split sep s = s.takeWhile (fun c => decide (c ≠ sep)) :: tl := by
  intro s
  induction s with
  | nil => exact ⟨[], rfl⟩
  | cons c cs ih =>
    obtain ⟨tl, e⟩ := ih
    by_cases hc : c = sep
    · refine ⟨Split sep cs, ?_⟩
      simp [Split, hc]
    · refine ⟨tl, ?_⟩
      simp only [Split, if_neg hc, e]
      rw [List.takeWhile_cons_of_pos (by simpa using hc)]

/-- Header recovery on a grid whose row-0 bytes are `a`, the separator, then `rest`, with
no separator in `a`: the label is `a` and the size field is `rest` up to its first
separator. -/
theorem header_of_split (img : Image) (a rest : Bytes)
    (hsplit : Decode.metaBytes img = a ++ 124 :: rest) (ha : 124 ∉ a) :
    Decode.header img =
      match Atoi (ReplaceAllString (rest.takeWhile (fun c => decide (c ≠ 124)))) with
      | .error e => .error e
      | .ok fileSize => .value (a, fileSize) := by
  obtain ⟨tl, e⟩ := Split_head 124 rest
  unfold Decode.header
  rw [hsplit, Split_append 124 rest a ha, e]

theorem filter_isDigit_nil (s : Bytes) (h : ∀ c ∈ s, isDigit c = false) :
    ReplaceAllString s = [] := by
  unfold ReplaceAllString
  rw [List.filter_eq_nil_iff]
  intro c hc
  rw [h c hc]
  decide

theorem ReplaceAllString_all_digits (s : Bytes) : ∀ d ∈ ReplaceAllString s, isDigit d = true := by
  intro d hd
  unfold ReplaceAllString at hd
  exact (List.mem_filter.mp hd).2

theorem unpack_of_header_error (img : Image) (e : GoError) (h : Decode.header img = .error e) :
    Decode.unpack img = .error e := by
  unfold Decode.unpack
  rw [h]

/-- C11 as stated fails: unpacking the grid packed from "a.txt", the four payload bytes and
width 2 does not return the label "a.txt", the length 4 and the payload. -/
theorem C11_counterexample :
    ∃ img, bytesToImage [97, 46, 116, 120, 116] [65, 66, 67, 68] 2 = .value img ∧
      Decode.unpack img ≠ .value ([97, 46, 116, 120, 116], 4, [65, 66, 67, 68]) :=
  ⟨_, rfl, by decide⟩

/-- C11 amended (the example of the specification): packing "a.txt", the four payload
bytes and width 2 gives a grid 2 wide and 3 high whose row 0 holds the six bytes "a.txt|",
the first six of the seven bytes of the header text; unpacking that grid ends with the
syntax error of `strconv.Atoi` on the empty size field. -/
theorem C11_example_unpack :
    ∃ img, bytesToImage [97, 46, 116, 120, 116] [65, 66, 67, 68] 2 = .value img ∧
      img.w = 2 ∧ img.h = 3 ∧
      Sprintf [97, 46, 116, 120, 116] 4 = [97, 46, 116, 120, 116, 124, 52] ∧
      Decode.metaBytes img = [97, 46, 116, 120, 116, 124] ∧
      Decode.header img = .error .errSyntax ∧
      Decode.unpack img = .error .errSyntax :=
  ⟨_, rfl, by decide, by decide, by decide, by decide, by decide, by decide⟩

/-- C12 as stated fails.  On the row-0 text "a|1|2" followed by a NUL byte the declared
length is 1, the digits up to the second separator, while the digits of all the text
after the first separator form 12.  On a row-0 text with no digit after the separator,
and on one whose digits form 2^63, no length is returned. -/
theorem C12_counterexample :
    (Decode.metaBytes ⟨2, 1, [⟨97, 124, 49, 255⟩, ⟨124, 50, 0, 255⟩]⟩
        = [97, 124, 49, 124, 50, 0] ∧
      digitsValue (ReplaceAllString [49, 124, 50, 0]) = 12 ∧
      Decode.header ⟨2, 1, [⟨97, 124, 49, 255⟩, ⟨124, 50, 0, 255⟩]⟩ = .value ([97], 1)) ∧
    Decode.header ⟨1, 1, [⟨124, 0, 0, 255⟩]⟩ = .error .errSyntax ∧
    Decode.header ⟨7, 1, [⟨124, 57, 50, 255⟩, ⟨50, 51, 51, 255⟩, ⟨55, 50, 48, 255⟩,
        ⟨51, 54, 56, 255⟩, ⟨53, 52, 55, 255⟩, ⟨55, 53, 56, 255⟩, ⟨48, 56, 0, 255⟩]⟩
      = .error .errRange := by
  decide

/-- C12 amended (size-field parsing): for every grid whose row-0 bytes are `a`, the
separator 124, then `rest`, with no separator in `a`, the label is `a` and the declared
length is the integer formed by the decimal digits of `rest` up to its next separator (all
of `rest` when it has none), every other byte of that part discarded, provided at least one
digit is left and the integer is below 2^63. -/
theorem C12_size_field (img : Image) (a rest : Bytes)
    (hsplit : Decode.metaBytes img = a ++ 124 :: rest) (ha : 124 ∉ a)
    (hne : ReplaceAllString (rest.takeWhile (fun c => decide (c ≠ 124))) ≠ [])
    (hr : digitsValue (ReplaceAllString (rest.takeWhile (fun c => decide (c ≠ 124)))) < 2 ^ 63) :
    Decode.header img = .value
      (a, (digitsValue (ReplaceAllString (rest.takeWhile (fun c => decide (c ≠ 124)))) : Int)) := by
  rw [header_of_split img a rest hsplit ha,
    Atoi_digits _ hne (ReplaceAllString_all_digits _) hr]

/-- C12 amended, at the grid of width 2 and height 1 whose row-0 text is "a|1|2" and a NUL
byte: label "a", declared length 1. -/
theorem C12_size_field_witness :
    Decode.header ⟨2, 1, [⟨97, 124, 49, 255⟩, ⟨124, 50, 0, 255⟩]⟩
      = .value ([97], ((1 : Nat) : Int)) :=
  C12_size_field ⟨2, 1, [⟨97, 124, 49, 255⟩, ⟨124, 50, 0, 255⟩]⟩ [97] [49, 124, 50, 0]
    (by decide) (by decide) (by decide) (by decide)

/-- C13 (unparseable size field): for every grid whose row-0 bytes are `a`, the separator
124, then `rest`, with no separator in `a` and no decimal digit in `rest`, the header
recovery and with it the unpacking end with an error; no payload is returned. -/
theorem C13_no_digit_fails (img : Image) (a rest : Bytes)
    (hsplit : Decode.metaBytes img = a ++ 124 :: rest) (ha : 124 ∉ a)
    (hnd : ∀ c ∈ rest, isDigit c = false) :
    Decode.header img = .error .errSyntax ∧ Decode.unpack img = .error .errSyntax := by
  have hf : ReplaceAllString (rest.takeWhile (fun c => decide (c ≠ 124))) = [] :=
    filter_isDigit_nil _ (fun c hc => hnd c (List.takeWhile_subset _ hc))
  have e : Decode.header img = .error .errSyntax := by
    rw [header_of_split img a rest hsplit ha, hf]
    rfl
  exact ⟨e, unpack_of_header_error img _ e⟩

/-- C13 at the grid of width 1 and height 1 whose row-0 text is the separator and two NUL
bytes. -/
theorem C13_no_digit_fails_witness :
    Decode.header ⟨1, 1, [⟨124, 0, 0, 255⟩]⟩ = .error .errSyntax ∧
    Decode.unpack ⟨1, 1, [⟨124, 0, 0, 255⟩]⟩ = .error .errSyntax :=
  C13_no_digit_fails ⟨1, 1, [⟨124, 0, 0, 255⟩]⟩ [] [0, 0] (by decide) (by decide) (by decide)

/-- C14 (silent header truncation): when the header text is longer than `3 * W` bytes the
packer still returns a grid; column `x` of row 0 holds bytes `3x`, `3x+1`, `3x+2` of the
header text with alpha 255; and for every other label the packed grid has the same size and
the same pixels in all rows from 1 on, so no header byte reaches the payload rows. -/
theorem C14_header_truncation (label P : Bytes) (W : Nat) (hW : 1 ≤ W)
    (hlong : 3 * W < (Sprintf label P.length).length) :
    ∃ img, bytesToImage label P W = .value img ∧
      (∀ x (hx : x < W), img.At x 0 =
        ⟨(Sprintf label P.length)[3 * x], (Sprintf label P.length)[3 * x + 1],
          (Sprintf label P.length)[3 * x + 2], 255⟩) ∧
      ∀ label2, ∃ img2, bytesToImage label2 P W = .value img2 ∧
        img2.w = img.w ∧ img2.h = img.h ∧ ∀ x y, 1 ≤ y → img2.At x y = img.At x y := by
  obtain ⟨img, hv, hw, hh, _, hat⟩ := bytesToImage_spec label P W hW
  refine ⟨img, hv, ?_, ?_⟩
  · intro x hx
    rw [hat, if_pos ⟨hx, by omega⟩, if_pos rfl]
    unfold headerPixel
    rw [if_pos (by omega), getD_eq_getElem_of_lt _ _ (by omega),
      getD_eq_getElem_of_lt _ _ (by omega), getD_eq_getElem_of_lt _ _ (by omega)]
  · intro label2
    obtain ⟨img2, hv2, hw2, hh2, _, hat2⟩ := bytesToImage_spec label2 P W hW
    refine ⟨img2, hv2, by rw [hw, hw2], by rw [hh, hh2], ?_⟩
    intro x y hy
    rw [hat, hat2]
    by_cases hin : x < W ∧ y < imgHeightOf P.length W + 1
    · rw [if_pos hin, if_pos hin, if_neg (by omega), if_neg (by omega)]
    · rw [if_neg hin, if_neg hin]

/-- C14 at label "a.txt", payload 0x41 0x42 0x43 0x44 and width 2 (header text of 7 bytes,
row 0 of 6), compared with the grid packed for label "a". -/
theorem C14_header_truncation_witness :
    ∃ img, bytesToImage [97, 46, 116, 120, 116] [65, 66, 67, 68] 2 = .value img ∧
      img.At 0 0 = ⟨97, 46, 116, 255⟩ ∧ img.At 1 0 = ⟨120, 116, 124, 255⟩ ∧
      ∃ img2, bytesToImage [97] [65, 66, 67, 68] 2 = .value img2 ∧
        img2.At 0 1 = img.At 0 1 ∧ img2.At 1 1 = img.At 1 1 := by
  obtain ⟨img, hv, h0, hrest⟩ :=
    C14_header_truncation [97, 46, 116, 120, 116] [65, 66, 67, 68] 2 (by decide) (by decide)
  obtain ⟨img2, hv2, _, _, hsame⟩ := hrest [97]
  exact ⟨img, hv, h0 0 (by decide), h0 1 (by decide), img2, hv2,
    hsame 0 1 (by decide), hsame 1 1 (by decide)⟩

/-! ## Path exclusion -/

theorem HasPrefix_iff (s pre : Bytes) : HasPrefix s pre = true ↔ pre <+: s := by
  unfold HasPrefix
  rw [List.prefix_iff_eq_take]
  simp only [Bool.and_eq_true, decide_eq_true_eq, beq_iff_eq]
  constructor
  · rintro ⟨_, h⟩
    exact h.symm
  · intro h
    refine ⟨?_, h.symm⟩
    have := congrArg List.length h
    rw [List.length_take] at this
    omega

theorem shouldExclude_iff (path : Bytes) : ∀ excludes : List Bytes,
    shouldExclude path excludes = true ↔ ∃ e ∈ excludes, e <+: path := by
  intro excludes
  induction excludes with
  | nil => simp [shouldExclude]
  | cons e rest ih =>
    simp only [shouldExclude, List.mem_cons, exists_eq_or_imp]
    by_cases h : HasPrefix path e = true
    · rw [if_pos h]
      simp [(HasPrefix_iff path e).mp h]
    · rw [if_neg h, ih]
      have : ¬ e <+: path := fun hp => h ((HasPrefix_iff path e).mpr hp)
      simp [this]

/-- C18 (exclusion by string prefix): `shouldExclude path excludes` is true exactly when
some element of `excludes` is a prefix of `path`; a path that is excluded stays excluded
whatever is appended to it; the empty list excludes nothing, in `shouldExclude` and in
the test of `Encode`; and that test agrees with `shouldExclude` on every list. -/
theorem C18_exclusion (path : Bytes) (excludes : List Bytes) :
    (shouldExclude path excludes = true ↔ ∃ e ∈ excludes, e <+: path) ∧
    (∀ ext, shouldExclude path excludes = true →
      shouldExclude (path ++ ext) excludes = true) ∧
    shouldExclude path [] = false ∧ Encode.skips path [] = false ∧
    Encode.skips path excludes = shouldExclude path excludes := by
  refine ⟨shouldExclude_iff path excludes, ?_, rfl, rfl, ?_⟩
  swap
  · cases excludes with
    | nil => rfl
    | cons e rest => simp [Encode.skips]
  intro ext h
  obtain ⟨e, he, hp⟩ := (shouldExclude_iff path excludes).mp h
  exact (shouldExclude_iff _ excludes).mpr ⟨e, he, hp.trans (List.prefix_append path ext)⟩

/-! ## The checked packer -/

theorem index_of_lt (s : Bytes) (i : Nat) (h : i < s.length) :
    index s i = .value (s.getD i 0) := by
  unfold index
  rw [List.getD_eq_getElem?_getD, List.getElem?_eq_getElem h]
  rfl

theorem index_guarded (s : Bytes) (i : Nat) :
    (if i < s.length then index s i else Outcome.value 0)
      = .value (if i < s.length then s.getD i 0 else 0) := by
  by_cases h : i < s.length
  · rw [if_pos h, if_pos h, index_of_lt s i h]
  · rw [if_neg h, if_neg h]

theorem metaLoopChecked_eq (m : Bytes) : ∀ (fuel i : Nat) (img : Image),
    metaLoopChecked m fuel i img = .value (metaLoop m fuel i img) := by
  intro fuel
  induction fuel with
  | zero => intro i img; rfl
  | succ fuel ih =>
    intro i img
    simp only [metaLoopChecked, metaLoop]
    by_cases h : i < m.length
    · rw [if_pos h, if_pos h, index_of_lt m i h, index_guarded, index_guarded]
      simp only [Outcome.bind]
      exact ih _ _
    · rw [if_neg h, if_neg h]

theorem fillPixelChecked_eq (P : Bytes) (y : Nat) (s : FillState) (x : Nat) :
    fillPixelChecked P P.length y s x = .value (fillPixel P P.length y s x) := by
  unfold fillPixelChecked fillPixel
  by_cases h : s.index < P.length
  · rw [if_pos h, if_pos h, index_of_lt P _ h, index_guarded, index_guarded]
    rfl
  · rw [if_neg h, if_neg h]

theorem loop_of_value {σ : Type} (body : σ → Nat → Outcome σ) (f : σ → Nat → σ)
    (h : ∀ s x, body s x = .value (f s x)) : ∀ (xs : List Nat) (s : σ),
    Outcome.loop body s xs = .value (xs.foldl f s) := by
  intro xs
  induction xs with
  | nil => intro s; rfl
  | cons x xs ih =>
    intro s
    simp only [Outcome.loop, h, Outcome.bind, List.foldl_cons]
    exact ih _

theorem fillRowChecked_eq (P : Bytes) (W : Nat) (s : FillState) (y : Nat) :
    fillRowChecked P P.length W s y = .value (fillRow P P.length W s y) := by
  unfold fillRowChecked fillRow
  exact loop_of_value _ _ (fillPixelChecked_eq P y) _ _

theorem NewRGBAChecked_of_fits (canAlloc : Nat → Bool) (w h : Nat) (hh : 1 ≤ h)
    (hlen : 4 * w * h < 2 ^ 63) (halloc : canAlloc (4 * w * h) = true) :
    NewRGBAChecked canAlloc w h = .value (NewRGBA w h) := by
  have h1 : 4 * w ≤ 4 * w * h := Nat.le_mul_of_pos_right _ (by omega)
  unfold NewRGBAChecked mul3NonNeg
  rw [if_neg (by omega), if_neg (by omega), if_neg (by omega)]
  simp only [halloc, if_true]

/-- The checked packer and the packer have the same outcome whenever the pixel buffer of
the grid can be made: no index check of the checked packer ever fails. -/
theorem bytesToImageChecked_eq (canAlloc : Nat → Bool) (label P : Bytes) (W : Nat)
    (hlen : 4 * W * (imgHeightOf P.length W + 1) < 2 ^ 63)
    (halloc : canAlloc (4 * W * (imgHeightOf P.length W + 1)) = true) :
    bytesToImageChecked canAlloc label P W = bytesToImage label P W := by
  have hH : (if P.length % W ≠ 0 then P.length / W + 1 else P.length / W)
      = imgHeightOf P.length W := rfl
  unfold bytesToImageChecked bytesToImage
  by_cases hW : W = 0
  · simp only [hW, if_true]
  · simp only [hW, if_false, hH]
    rw [NewRGBAChecked_of_fits canAlloc W _ (by omega) hlen halloc]
    simp only [metaLoopChecked_eq, Outcome.bind]
    rw [loop_of_value _ _ (fillRowChecked_eq P W)]

/-- C15 as stated fails.  At width 2^61 and an empty payload the pixel buffer of the grid
would have 2^63 bytes, which is not an `int`, and `image.NewRGBA` panics, whatever the
allocator grants.  At width 2^47 the buffer has 2^49 bytes and the packer panics under an
allocator that grants at most 2^48 bytes. -/
theorem C15_counterexample :
    (1 ≤ 2 ^ 61 ∧ bytesToImageChecked (fun _ => true) [] [] (2 ^ 61)
      = .crash "image: NewRGBA Rectangle has huge or negative dimensions") ∧
    (1 ≤ 2 ^ 47 ∧ bytesToImageChecked (fun n => decide (n ≤ 2 ^ 48)) [] [] (2 ^ 47)
      = .crash "makeslice: len out of range") := by
  refine ⟨⟨by decide, ?_⟩, ⟨by decide, ?_⟩⟩
  · rfl
  · rfl

/-- C15 amended (the packer fails only in making the grid): for every label, payload and
width of at least 1 such that the length `4 * W * (H + 1)` of the pixel buffer, `H` the
number of payload rows, is below 2^63 and the allocator grants it, the packer with the
call of `image.NewRGBA`, every index expression into the header bytes and the payload and
the division by the width checked returns a grid with a nil error, the grid of
`bytesToImage`, of width `W` and height `H + 1`. -/
theorem C15_packer_total (canAlloc : Nat → Bool) (label P : Bytes) (W : Nat) (hW : 1 ≤ W)
    (hlen : 4 * W * (imgHeightOf P.length W + 1) < 2 ^ 63)
    (halloc : canAlloc (4 * W * (imgHeightOf P.length W + 1)) = true) :
    ∃ img, bytesToImageChecked canAlloc label P W = .value img ∧
      bytesToImage label P W = .value img ∧
      img.w = W ∧ img.h = imgHeightOf P.length W + 1 ∧
      imgHeightOf P.length W = ⌈(P.length : ℚ) / (W : ℚ)⌉₊ := by
  obtain ⟨img, hv, hw, hh, _, _⟩ := bytesToImage_spec label P W hW
  exact ⟨img, by rw [bytesToImageChecked_eq canAlloc label P W hlen halloc, hv], hv, hw, hh,
    imgHeightOf_eq_ceil _ _ hW⟩

/-- C15 amended, at label "a", payload 0x41 0x42 0x43 0x44, width 2 and an allocator that
grants at most 2^48 bytes: both payload rows are filled, one of them with payload bytes. -/
theorem C15_packer_total_witness :
    ∃ img, bytesToImageChecked (fun n => decide (n ≤ 2 ^ 48)) [97] [65, 66, 67, 68] 2
        = .value img ∧
      bytesToImage [97] [65, 66, 67, 68] 2 = .value img ∧ img.w = 2 ∧ img.h = 3 := by
  obtain ⟨img, hc, hv, hw, hh, _⟩ :=
    C15_packer_total (fun n => decide (n ≤ 2 ^ 48)) [97] [65, 66, 67, 68] 2
      (by decide) (by decide) (by decide)
  exact ⟨img, hc, hv, hw, hh⟩

/-! ## The scan of `Decode` -/

theorem pos_mod_div {w x : Nat} (y : Nat) (hx : x < w) :
    (y * w + x) % w = x ∧ (y * w + x) / w = y := by
  have hw : 0 < w := by omega
  constructor
  · rw [Nat.add_comm, Nat.add_mul_mod_self_right, Nat.mod_eq_of_lt hx]
  · rw [Nat.add_comm, Nat.add_mul_div_right _ _ hw, Nat.div_eq_of_lt hx]; omega

theorem bytesUpTo_succ (img : Image) (n : Nat) :
    img.bytesUpTo (n + 1) = img.bytesUpTo n ++ pixelBytes (img.At (n % img.w) (n / img.w)) := by
  unfold Image.bytesUpTo
  rw [List.range_succ, List.flatMap_append, List.flatMap_singleton]

theorem scanPixel_stopped (img : Image) (y x : Nat) (s : ScanState) (hs : s.stopped = true) :
    Decode.scanPixel img y s x = s := by
  unfold Decode.scanPixel
  rw [if_pos hs]

theorem scanPixel_break (img : Image) (y x : Nat) (s : ScanState) (hs : s.stopped = false)
    (hb : (img.At x y).RGBA16.2.2.2 < 255 ∧ y ≠ 0) :
    Decode.scanPixel img y s x = ⟨s.zipBytes, true⟩ := by
  unfold Decode.scanPixel
  rw [if_neg (by rw [hs]; decide)]
  simp only []
  rw [if_pos hb]

theorem scanPixel_append (img : Image) (y x : Nat) (s : ScanState) (hs : s.stopped = false)
    (hb : ¬ ((img.At x y).RGBA16.2.2.2 < 255 ∧ y ≠ 0)) (hx : x < img.w) (hy : y < img.h) :
    Decode.scanPixel img y s x = ⟨s.zipBytes ++ pixelBytes (img.At x y), false⟩ := by
  have hlt := offset_lt hx hy
  have g1 : (x + y * img.w) * 3 + 1 < img.w * img.h * 3 := by omega
  have g2 : (x + y * img.w) * 3 + 2 < img.w * img.h * 3 := by omega
  unfold Decode.scanPixel
  rw [if_neg (by rw [hs]; decide)]
  simp only []
  rw [if_neg hb, if_pos g1, if_pos g2]
  cases s with
  | mk z st =>
    simp only [] at hs
    subst hs
    simp [pixelBytes]

theorem scanPixel_scanSpec (img : Image) (N : Nat) (hno : ∀ k, k < N → ¬ img.stopsAt k)
    (hstop : N < img.w * img.h → img.stopsAt N) (y x : Nat) (hx : x < img.w)
    (hy : y < img.h) :
    Decode.scanPixel img y (scanSpec img N (y * img.w + x)) x
      = scanSpec img N (y * img.w + x + 1) := by
  obtain ⟨em, ed⟩ := pos_mod_div y hx
  have hlt := offset_lt hx hy
  unfold scanSpec
  by_cases h1 : y * img.w + x < N
  · rw [if_pos (by omega), if_pos (by omega)]
    have hns := hno _ h1
    unfold Image.stopsAt at hns
    rw [em, ed] at hns
    rw [scanPixel_append img y x _ rfl hns hx hy, bytesUpTo_succ, em, ed]
  · by_cases h2 : y * img.w + x = N
    · rw [if_pos (by omega), if_neg (by omega)]
      have hst := hstop (by omega)
      unfold Image.stopsAt at hst
      rw [← h2, em, ed] at hst
      rw [scanPixel_break img y x _ rfl hst, h2]
    · rw [if_neg (by omega), if_neg (by omega)]
      exact scanPixel_stopped img y x _ rfl

theorem scanRow_scanSpec (img : Image) (N : Nat) (hno : ∀ k, k < N → ¬ img.stopsAt k)
    (hstop : N < img.w * img.h → img.stopsAt N) (y : Nat) (hy : y < img.h) :
    ∀ x, x ≤ img.w →
      (List.range x).foldl (Decode.scanPixel img y) (scanSpec img N (y * img.w))
        = scanSpec img N (y * img.w + x) := by
  intro x
  induction x with
  | zero => intro _; rfl
  | succ x ih =>
    intro hx
    rw [List.range_succ, List.foldl_append, ih (by omega)]
    simp only [List.foldl_cons, List.foldl_nil]
    exact scanPixel_scanSpec img N hno hstop y x (by omega) hy

theorem scanRows_scanSpec (img : Image) (N : Nat) (hno : ∀ k, k < N → ¬ img.stopsAt k)
    (hstop : N < img.w * img.h → img.stopsAt N) :
    ∀ y, y ≤ img.h →
      (List.range y).foldl (Decode.scanRow img) ⟨[], false⟩ = scanSpec img N (y * img.w) := by
  intro y
  induction y with
  | zero =>
    intro _
    simp [scanSpec, Image.bytesUpTo]
  | succ y ih =>
    intro hy
    rw [List.range_succ, List.foldl_append, ih (by omega)]
    simp only [List.foldl_cons, List.foldl_nil]
    unfold Decode.scanRow
    rw [scanRow_scanSpec img N hno hstop y (by omega) img.w (le_refl _)]
    congr 1
    rw [Nat.add_mul]
    omega

/-- The scan of `Decode` returns the bytes of the pixels before the first one that takes
the `break`, or of all pixels when none does. -/
theorem scan_eq_bytesUpTo (img : Image) (N : Nat) (hN : N ≤ img.w * img.h)
    (hno : ∀ k, k < N → ¬ img.stopsAt k) (hstop : N < img.w * img.h → img.stopsAt N) :
    Decode.scan img = img.bytesUpTo N := by
  unfold Decode.scan
  rw [scanRows_scanSpec img N hno hstop img.h (le_refl _)]
  unfold scanSpec
  by_cases h : img.h * img.w ≤ N
  · rw [if_pos h]
    have : N = img.h * img.w := by rw [Nat.mul_comm] at hN; omega
    rw [this]
  · rw [if_neg h]

theorem bytesUpTo_length (img : Image) : ∀ n, (img.bytesUpTo n).length = 3 * n := by
  intro n
  induction n with
  | zero => rfl
  | succ n ih =>
    rw [bytesUpTo_succ, List.length_append, ih]
    simp [pixelBytes]
    omega

theorem metaBytes_eq_bytesUpTo (img : Image) : Decode.metaBytes img = img.bytesUpTo img.w := by
  have h : ∀ n, n ≤ img.w →
      (List.range n).foldl
        (fun acc x =>
          let c := (img.At x 0).RGBA16
          acc ++ [byte (c.1 >>> 8), byte (c.2.1 >>> 8), byte (c.2.2.1 >>> 8)])
        [] = img.bytesUpTo n := by
    intro n
    induction n with
    | zero => intro _; rfl
    | succ n ih =>
      intro hn
      rw [List.range_succ, List.foldl_append, ih (by omega), bytesUpTo_succ,
        Nat.mod_eq_of_lt (by omega), Nat.div_eq_of_lt (by omega)]
      rfl
  exact h img.w (le_refl _)

/-- Every grid has a position `N` up to which the scan of `Decode` reads: the position of
the first pixel that takes the `break`, or the number of pixels. -/
theorem scan_reads_initial_segment (img : Image) :
    ∃ N, N ≤ img.w * img.h ∧ Decode.scan img = img.bytesUpTo N := by
  classical
  by_cases h : ∃ k, k < img.w * img.h ∧ img.stopsAt k
  · refine ⟨Nat.find h, le_of_lt (Nat.find_spec h).1, ?_⟩
    apply scan_eq_bytesUpTo img _ (le_of_lt (Nat.find_spec h).1)
    · intro k hk hst
      exact Nat.find_min h hk ⟨lt_trans hk (Nat.find_spec h).1, hst⟩
    · intro _
      exact (Nat.find_spec h).2
  · refine ⟨img.w * img.h, le_refl _, ?_⟩
    apply scan_eq_bytesUpTo img _ (le_refl _)
    · intro k hk hst
      exact h ⟨k, hk, hst⟩
    · intro hlt
      exact absurd hlt (lt_irrefl _)

theorem triples_of_range (f : Nat → Nat) (g : Nat → Bytes) : ∀ n,
    (∀ j, j < n → g j = [f (3 * j), f (3 * j + 1), f (3 * j + 2)]) →
    (List.range n).flatMap g = (List.range (3 * n)).map f := by
  intro n
  induction n with
  | zero => intro _; rfl
  | succ n ih =>
    intro h
    have e3 : 3 * (n + 1) = 3 * n + 1 + 1 + 1 := by omega
    rw [List.range_succ, List.flatMap_append, List.flatMap_singleton,
      ih (fun j hj => h j (by omega)), h n (by omega), e3,
      List.range_succ, List.range_succ, List.range_succ]
    simp only [List.map_append, List.map_cons, List.map_nil, List.append_assoc,
      List.singleton_append]
    rfl

theorem payloadPixel_R (P : Bytes) (k : Nat) : (payloadPixel P k).R = P.getD (3 * k) 0 := by
  have hz : ¬ 3 * k < P.length → P.getD (3 * k) 0 = 0 :=
    fun h => getD_zero_of_le P (3 * k) (by omega)
  unfold payloadPixel
  split
  · rfl
  · split
    · rfl
    · split
      · rfl
      · rename_i h0
        rw [hz h0]; rfl

theorem payloadPixel_G (P : Bytes) (k : Nat) : (payloadPixel P k).G = P.getD (3 * k + 1) 0 := by
  have hz : ¬ 3 * k + 1 < P.length → P.getD (3 * k + 1) 0 = 0 :=
    fun h => getD_zero_of_le P (3 * k + 1) (by omega)
  unfold payloadPixel
  split
  · rfl
  · split
    · rfl
    · rename_i h1
      rw [hz h1]
      split <;> rfl

theorem payloadPixel_B (P : Bytes) (k : Nat) : (payloadPixel P k).B = P.getD (3 * k + 2) 0 := by
  have hz : ¬ 3 * k + 2 < P.length → P.getD (3 * k + 2) 0 = 0 :=
    fun h => getD_zero_of_le P (3 * k + 2) (by omega)
  unfold payloadPixel
  split
  · rfl
  · rename_i h2
    rw [hz h2]
    split
    · rfl
    · split <;> rfl

theorem payloadPixel_alpha16 (P : Bytes) (k : Nat) (h : 3 * k < P.length) :
    ¬ ((payloadPixel P k).RGBA16.2.2.2 < 255) := by
  unfold payloadPixel
  split
  · show ¬ ((255 ||| (255 <<< 8)) < 255)
    decide
  · split
    · show ¬ ((253 ||| (253 <<< 8)) < 255)
      decide
    · show ¬ ((252 ||| (252 <<< 8)) < 255)
      decide

theorem payloadPixel_zero (P : Bytes) (k : Nat) (h : P.length ≤ 3 * k) :
    payloadPixel P k = RGBA.zero := by
  unfold payloadPixel
  rw [if_neg (by omega), if_neg (by omega), if_neg (by omega)]

theorem pixelBytes_payloadPixel (P : Bytes) (hP : IsBytes P) (k : Nat) :
    pixelBytes (payloadPixel P k)
      = [P.getD (3 * k) 0, P.getD (3 * k + 1) 0, P.getD (3 * k + 2) 0] := by
  simp only [pixelBytes, RGBA.RGBA16, payloadPixel_R, payloadPixel_G, payloadPixel_B]
  rw [byte_RGBA16 _ (getD_lt_256 hP _), byte_RGBA16 _ (getD_lt_256 hP _),
    byte_RGBA16 _ (getD_lt_256 hP _)]

/-! ## The scan of a packed grid -/

/-- On a grid with the pixels `bytesToImage` writes, the scan of `Decode` returns the bytes
of row 0, then the payload, then zero bytes up to a multiple of three. -/
theorem scan_of_packed {img : Image} {label P : Bytes} {W : Nat} (hW : 1 ≤ W)
    (hP : IsBytes P) (hw : img.w = W) (hh : img.h = imgHeightOf P.length W + 1)
    (hat : ∀ x y, img.At x y =
        if x < W ∧ y < imgHeightOf P.length W + 1 then
          (if y = 0 then headerPixel (Sprintf label P.length) x
           else payloadPixel P ((y - 1) * W + x))
        else RGBA.zero) :
    Decode.scan img
      = Decode.metaBytes img ++ P ++ List.replicate ((3 - P.length % 3) % 3) 0 := by
  have hcap := le_imgHeightOf_mul P.length W hW
  have hc3 : 3 * ((P.length + 2) / 3) - P.length = (3 - P.length % 3) % 3 := by omega
  have hcle : (P.length + 2) / 3 ≤ imgHeightOf P.length W * W := by omega
  have hwh : img.w * img.h = imgHeightOf P.length W * W + W := by
    rw [hw, hh, Nat.mul_succ, Nat.mul_comm]
  generalize hc : (P.length + 2) / 3 = c at hc3 hcle
  have hcL : ∀ j, j < c → 3 * j < P.length := by intro j hj; omega
  have hLc : P.length ≤ 3 * c := by omega
  generalize imgHeightOf P.length W = H at hh hat hcap hcle hwh
  have hpix : ∀ y1 x, x < W → y1 * W + x < c → img.At x (y1 + 1) = payloadPixel P (y1 * W + x) := by
    intro y1 x hx hj
    have hy1 : y1 < H := by
      apply Nat.lt_of_mul_lt_mul_right (a := W)
      omega
    rw [hat, if_pos ⟨hx, by omega⟩, if_neg (by omega), Nat.add_sub_cancel]
  have hno : ∀ k, k < W + c → ¬ img.stopsAt k := by
    intro k hk hst
    unfold Image.stopsAt at hst
    rw [hw] at hst
    have hx : k % W < W := Nat.mod_lt _ (by omega)
    have hdm : W * (k / W) + k % W = k := Nat.div_add_mod k W
    generalize k / W = y at hst hdm
    generalize k % W = x at hst hdm hx
    obtain ⟨ha, hy⟩ := hst
    cases y with
    | zero => exact hy rfl
    | succ y1 =>
      have e : W * (y1 + 1) = y1 * W + W := by rw [Nat.mul_succ, Nat.mul_comm]
      rw [hpix y1 x hx (by omega)] at ha
      exact payloadPixel_alpha16 P _ (hcL _ (by omega)) ha
  have hstop : W + c < img.w * img.h → img.stopsAt (W + c) := by
    intro hlt
    have hr : c % W < W := Nat.mod_lt _ (by omega)
    have hdm : W * (c / W) + c % W = c := Nat.div_add_mod c W
    generalize c / W = q at hdm
    generalize c % W = r at hdm hr
    have e : W + c = (q + 1) * W + r := by rw [Nat.add_mul, Nat.mul_comm q W]; omega
    have e2 : W * q = q * W := Nat.mul_comm _ _
    have hq : q < H := by
      apply Nat.lt_of_mul_lt_mul_right (a := W)
      omega
    obtain ⟨em, ed⟩ := pos_mod_div (q + 1) hr
    unfold Image.stopsAt
    rw [hw, e, em, ed, hat, if_pos ⟨hr, by omega⟩, if_neg (by omega), Nat.add_sub_cancel,
      payloadPixel_zero P _ (by omega)]
    exact ⟨by decide, by omega⟩
  rw [scan_eq_bytesUpTo img (W + c) (by omega) hno hstop, metaBytes_eq_bytesUpTo, hw]
  have hsplit : img.bytesUpTo (W + c) = img.bytesUpTo W ++ (List.range (3 * c)).map (fun i => P.getD i 0) := by
    unfold Image.bytesUpTo
    rw [List.range_add, List.flatMap_append, List.flatMap_map]
    congr 1
    apply triples_of_range
    intro j hj
    have hx : j % W < W := Nat.mod_lt _ (by omega)
    have hdm : W * (j / W) + j % W = j := Nat.div_add_mod j W
    rw [hw, Nat.add_mod_left, Nat.add_div_left _ (by omega)]
    generalize j / W = y1 at hdm
    generalize j % W = x at hdm hx
    have e2 : W * y1 = y1 * W := Nat.mul_comm _ _
    rw [hpix y1 x hx (by omega)]
    have ej : y1 * W + x = j := by omega
    rw [ej, pixelBytes_payloadPixel P hP]
  rw [hsplit, map_getD_range P _ hLc, hc3, List.append_assoc]

/-- C16 (what the scan recovers from a packed grid): for a width of at least 1 and a
payload of bytes, the scan of `Decode` as written, run on the packed grid, returns the
`3 * W` R, G, B bytes of row 0, then the payload, then `(3 - L % 3) % 3` zero bytes; the
payload is the slice of length `L` at offset `3 * W`. -/
theorem C16_scan_of_packed_grid (label P : Bytes) (W : Nat) (hW : 1 ≤ W) (hP : IsBytes P) :
    ∃ img, bytesToImage label P W = .value img ∧
      (Decode.metaBytes img).length = 3 * W ∧
      Decode.scan img
        = Decode.metaBytes img ++ P ++ List.replicate ((3 - P.length % 3) % 3) 0 ∧
      ((Decode.scan img).drop (3 * W)).take P.length = P := by
  obtain ⟨img, hv, hw, hh, _, hat⟩ := bytesToImage_spec label P W hW
  have hlen : (Decode.metaBytes img).length = 3 * W := by
    rw [metaBytes_eq_bytesUpTo, bytesUpTo_length, hw]
  have hscan := scan_of_packed hW hP hw hh hat
  refine ⟨img, hv, hlen, hscan, ?_⟩
  rw [hscan, List.append_assoc, List.drop_left' hlen, List.take_left]

/-- C16 at label "a", payload 0x41 0x42 0x43 0x44 and width 2. -/
theorem C16_scan_of_packed_grid_witness :
    ∃ img, bytesToImage [97] [65, 66, 67, 68] 2 = .value img ∧
      (Decode.metaBytes img).length = 6 ∧
      Decode.scan img = Decode.metaBytes img ++ [65, 66, 67, 68] ++ [0, 0] ∧
      ((Decode.scan img).drop 6).take 4 = [65, 66, 67, 68] :=
  C16_scan_of_packed_grid [97] [65, 66, 67, 68] 2 (by decide) (by decide)

/-- C17 (the G/B capacity gates never fire): for every grid and every point `(x, y)` inside
it, the two gate conditions of the scan hold; a step of the scan at that point that starts
and ends without the `break` appends exactly the three bytes of the pixel; and the length
of what the scan returns is a multiple of 3. -/
theorem C17_gates_never_fire (img : Image) (x y : Nat) (hx : x < img.w) (hy : y < img.h) :
    (x + y * img.w) * 3 + 1 < img.w * img.h * 3 ∧
    (x + y * img.w) * 3 + 2 < img.w * img.h * 3 ∧
    (∀ s : ScanState, s.stopped = false → (Decode.scanPixel img y s x).stopped = false →
      (Decode.scanPixel img y s x).zipBytes = s.zipBytes ++ pixelBytes (img.At x y) ∧
      (pixelBytes (img.At x y)).length = 3) ∧
    3 ∣ (Decode.scan img).length := by
  have hlt := offset_lt hx hy
  refine ⟨by omega, by omega, ?_, ?_⟩
  · intro s hs hafter
    by_cases hb : (img.At x y).RGBA16.2.2.2 < 255 ∧ y ≠ 0
    · rw [scanPixel_break img y x s hs hb] at hafter
      exact absurd hafter (fun h => Bool.noConfusion h)
    · rw [scanPixel_append img y x s hs hb hx hy]
      exact ⟨rfl, rfl⟩
  · obtain ⟨N, _, hN⟩ := scan_reads_initial_segment img
    rw [hN, bytesUpTo_length]
    exact Dvd.intro N rfl

/-- C17 at the grid of width 1 and height 1 and its only, and last, point. -/
theorem C17_gates_never_fire_witness :
    (0 + 0 * 1) * 3 + 1 < 1 * 1 * 3 ∧ (0 + 0 * 1) * 3 + 2 < 1 * 1 * 3 ∧
    Decode.scan ⟨1, 1, [⟨1, 2, 3, 255⟩]⟩ = [1, 2, 3] ∧
    3 ∣ (Decode.scan ⟨1, 1, [⟨1, 2, 3, 255⟩]⟩).length := by
  obtain ⟨g1, g2, _, hd⟩ :=
    C17_gates_never_fire ⟨1, 1, [⟨1, 2, 3, 255⟩]⟩ 0 0 (by decide) (by decide)
  exact ⟨g1, g2, by decide, hd⟩

end VeilVault
